import Mathlib

/-!
Shallow embedding of the klipper4cnc CNC pipeline
(klippy/extras/cnc/: primitives.py, modal_state.py, linear.py, arc.py,
interpreter.py, parser.py, planner.py, streamer.py, controller.py)
and proofs about the frozen specification claims.

Modelling conventions:
* Python floats are modelled as real numbers (`ℝ`); literal decimal
  constants are the corresponding real literals.
* Python exceptions are modelled with `Except PyErr`.  An access to an
  attribute that no class in the repository ever defines is modelled as
  `.error (.attributeError name)`, because at run time CPython raises
  `AttributeError` the moment the attribute is read.
* Parsed numeric word values are represented as exact rationals (every
  Python float literal in a G-code file is a decimal rational); they are
  cast to `ℝ` when they enter modal-state arithmetic.
* Mutation is modelled by explicit state passing; an operation on a
  stateful object returns the new object.
-/

set_option maxHeartbeats 1000000
set_option maxRecDepth 4000

open scoped Classical

noncomputable section

/-- Python exception kinds that the embedded code can raise. -/
inductive PyErr where
  | attributeError (attr : String)
  | valueError (msg : String)
  | runtimeError (msg : String)
  | zeroDivisionError
  | typeError (msg : String)
  deriving DecidableEq

/-- Three-dimensional point, used for machine/program-space positions. -/
abbrev Vec3 := ℝ × ℝ × ℝ

/-- Euclidean distance between two 3-d points (Python `math.dist`). -/
def dist3 (a b : Vec3) : ℝ :=
  Real.sqrt ((b.1 - a.1) ^ 2 + (b.2.1 - a.2.1) ^ 2 + (b.2.2 - a.2.2) ^ 2)

/-- Python `math.hypot` for two arguments. -/
def hypot2 (x y : ℝ) : ℝ := Real.sqrt (x ^ 2 + y ^ 2)

/-- Python `math.atan2 y x`, realised through the complex argument
(`Complex.arg ⟨x, y⟩` has exactly the atan2 branch behaviour, with
range `(-π, π]` and `atan2 0 0 = 0`). -/
def atan2 (y x : ℝ) : ℝ := Complex.arg ⟨x, y⟩

/-- primitives.py: `MotionType` enumeration (G0/G1/G2/G3). -/
inductive MotionType where
  | RAPID
  | LINEAR
  | ARC_CW
  | ARC_CCW
  deriving DecidableEq

/-- primitives.py: `MotionPrimitive` dataclass.  `feedrate` is optional
("None for non-feed moves"). -/
structure MotionPrimitive where
  motion : MotionType
  start : Vec3
  stop : Vec3            -- the Python field is named `end`, a Lean keyword
  feedrate : Option ℝ

/-- primitives.py: `MotionPrimitive.length`, the Euclidean length. -/
def MotionPrimitive.length (p : MotionPrimitive) : ℝ :=
  Real.sqrt ((p.stop.1 - p.start.1) * (p.stop.1 - p.start.1)
    + (p.stop.2.1 - p.start.2.1) * (p.stop.2.1 - p.start.2.1)
    + (p.stop.2.2 - p.start.2.2) * (p.stop.2.2 - p.start.2.2))

/-- modal_state.py: class `Plane` string constants. -/
def Plane.XY : String := "G17"

/-- modal_state.py: `Plane.XZ`. -/
def Plane.XZ : String := "G18"

/-- modal_state.py: `Plane.YZ`. -/
def Plane.YZ : String := "G19"

/-- modal_state.py: class `CNCModalState`.  Exactly the attributes that
`__init__` creates; in particular there is NO `work_offset` (singular)
attribute and NO `max_segment_time` attribute anywhere in the class or
the rest of the repository. -/
structure CNCModalState where
  units : String
  units_scale : ℝ
  absolute : Bool
  plane : String
  feedrate : ℝ
  active_wcs : String
  work_offsets : String → Vec3   -- the six-key dict, total as a function
  position : Vec3
  motion_mode : Option MotionType
  arc_tolerance : ℝ

/-- modal_state.py: the dict literal `work_offsets` from `__init__`
(every configured key maps to `(0.0, 0.0, 0.0)`). -/
def initWorkOffsets : String → Vec3 := fun _ => ((0 : ℝ), (0 : ℝ), (0 : ℝ))

/-- modal_state.py: `CNCModalState.__init__`. -/
def CNCModalState.init : CNCModalState where
  units := "mm"
  units_scale := 1.0
  absolute := true
  plane := Plane.XY
  feedrate := 1000
  active_wcs := "G54"
  work_offsets := initWorkOffsets
  position := ((0.0 : ℝ), (0.0 : ℝ), (0.0 : ℝ))
  motion_mode := none
  arc_tolerance := 0.01

/-- modal_state.py: `set_units`. -/
def CNCModalState.set_units (st : CNCModalState) (gcode : String) : CNCModalState :=
  if gcode = "G20" then { st with units := "inch", units_scale := 25.4 }
  else if gcode = "G21" then { st with units := "mm", units_scale := 1.0 }
  else st

/-- modal_state.py: `set_plane`. -/
def CNCModalState.set_plane (st : CNCModalState) (gcode : String) : CNCModalState :=
  if gcode = "G17" then { st with plane := Plane.XY }
  else if gcode = "G18" then { st with plane := Plane.XZ }
  else if gcode = "G19" then { st with plane := Plane.YZ }
  else st

/-- modal_state.py: `set_distance_mode`. -/
def CNCModalState.set_distance_mode (st : CNCModalState) (gcode : String) : CNCModalState :=
  { st with absolute := gcode = "G90" }

/-- modal_state.py: `update_feedrate` (applies unit scaling). -/
def CNCModalState.update_feedrate (st : CNCModalState) (f : ℝ) : CNCModalState :=
  { st with feedrate := f * st.units_scale }

/-- Target dictionaries (`{"X": 10, "Y": 5}` …): insertion-ordered
association lists with rational values, Python-dict update semantics. -/
abbrev Words := List (String × ℚ)

/-- Python dict membership `k in d` for the association-list model. -/
def Words.hasKey (w : Words) (k : String) : Bool :=
  w.any (fun kv => kv.1 = k)

/-- Python dict read `d[k]` (defaulting, used only where the key exists). -/
def Words.get (w : Words) (k : String) : ℚ :=
  ((w.find? (fun kv => kv.1 = k)).map Prod.snd).getD 0

/-- Python dict write `d[k] = v`: replace in place if present (keeping
the original insertion position), append otherwise. -/
def Words.set (w : Words) (k : String) (v : ℚ) : Words :=
  if w.hasKey k then w.map (fun kv => if kv.1 = k then (k, v) else kv)
  else w ++ [(k, v)]

/-- Python `dict.get(k, d)` with a real default (used for I/J/K). -/
def Words.getDefault (w : Words) (k : String) (d : ℚ) : ℚ :=
  if w.hasKey k then w.get k else d

/-- modal_state.py: `resolve_target`.

Source (lines 133-143): starting from `resolved = list(self.position)`,
for each of the axes `X`, `Y`, `Z` present in the target dictionary it
computes `value = target[axis] * self.units_scale` and then executes

* absolute mode:    `resolved[i] = value + self.work_offset[i]`
* incremental mode: `resolved[i] += value`

`self.work_offset` (singular!) is an attribute that `CNCModalState`
never defines — the class only defines the dict `work_offsets` — and no
code in the repository ever assigns it, so in absolute mode the first
axis present raises `AttributeError("work_offset")`. -/
def CNCModalState.resolve_target (st : CNCModalState) (target : Words) :
    Except PyErr Vec3 := do
  let mut resolved : Vec3 := st.position
  if target.hasKey "X" then
    if st.absolute then
      throw (.attributeError "work_offset")
    else
      resolved := (resolved.1 + (target.get "X" : ℝ) * st.units_scale,
        resolved.2.1, resolved.2.2)
  if target.hasKey "Y" then
    if st.absolute then
      throw (.attributeError "work_offset")
    else
      resolved := (resolved.1,
        resolved.2.1 + (target.get "Y" : ℝ) * st.units_scale, resolved.2.2)
  if target.hasKey "Z" then
    if st.absolute then
      throw (.attributeError "work_offset")
    else
      resolved := (resolved.1, resolved.2.1,
        resolved.2.2 + (target.get "Z" : ℝ) * st.units_scale)
  return resolved

/-- Interpolated point `start + (end - start) * t`, componentwise, as
built inside the `segment_linear` loop body. -/
def lerpPoint (start stop : Vec3) (t : ℝ) : Vec3 :=
  (start.1 + (stop.1 - start.1) * t,
   start.2.1 + (stop.2.1 - start.2.1) * t,
   start.2.2 + (stop.2.2 - start.2.2) * t)

/-- linear.py: the `for i in range(1, segments + 1)` loop of
`segment_linear`, carrying `prev` exactly as the Python loop does.
`i` counts from 0 here and the loop body uses `t = (i + 1) / segments`,
matching Python's 1-based `t = i / segments`. -/
def segLinearLoop (start stop : Vec3) (segments : ℕ) (prev : Vec3) (i : ℕ) :
    List (Vec3 × Vec3) :=
  if i < segments then
    let next_pt := lerpPoint start stop (((i : ℝ) + 1) / (segments : ℝ))
    (prev, next_pt) :: segLinearLoop start stop segments next_pt (i + 1)
  else []
termination_by segments - i
decreasing_by omega

/-- linear.py: `segment_linear`.

Breaks a linear move into time-bounded segments.  Mirrors the source
exactly: the `start == end` early-out, the feed conversion guarded by
`feedrate > 0`, the single-segment fallback for non-positive feed or
length, `segments = max(1, math.ceil(move_time / max_segment_time))`
(a `ZeroDivisionError` if `max_segment_time` is zero, as in Python),
and the interpolation loop carrying `prev`. -/
def segment_linear (start stop : Vec3) (feedrate : ℝ) (max_segment_time : ℝ) :
    Except PyErr (List (Vec3 × Vec3)) := do
  if start = stop then
    return []
  let feed_ups : ℝ := if feedrate > 0 then feedrate / 60.0 else 0.0
  let length := dist3 start stop
  if feed_ups ≤ 0 ∨ length ≤ 0 then
    return [(start, stop)]
  let move_time := length / feed_ups
  if max_segment_time = 0 then
    throw .zeroDivisionError
  let segments : ℕ := max 1 (⌈move_time / max_segment_time⌉.toNat)
  return segLinearLoop start stop segments start 0

/-- arc.py: the sweep-direction adjustment of `segment_arc` for partial
arcs (`sweep -= 2π` when clockwise and positive, `+= 2π` when
counter-clockwise and negative). -/
def adjustSweep (clockwise : Bool) (sweep : ℝ) : ℝ :=
  if clockwise ∧ sweep > 0 then sweep - 2 * Real.pi
  else if ¬clockwise ∧ sweep < 0 then sweep + 2 * Real.pi
  else sweep

/-- arc.py: the point sampled by the `segment_arc` loop at iteration
`i` (0-based here; the Python loop runs `i` in `1..segments` and uses
`t = i / segments`). -/
def arcPointAt (cx cy rs start_ang sweep : ℝ) (segments : ℕ) (i : ℕ) : ℝ × ℝ :=
  let t : ℝ := ((i : ℝ) + 1) / (segments : ℝ)
  let ang := start_ang + sweep * t
  (cx + rs * Real.cos ang, cy + rs * Real.sin ang)

/-- arc.py: `segment_arc`.

Segments a circular arc into linear points under the chordal-tolerance
rule.  Mirrors the source: radius computation from both endpoints, the
zero-radius `ValueError`, the `1e-9` full-circle detection, the signed
sweep with direction adjustment (full circles sweep `±2π`), the
early-out empty list when the arc length is zero,
`max_seg_angle = 2 * acos(max(0.0, 1 - tolerance / rs))`,
`segments = max(1, int(abs(sweep) / max_seg_angle))` (Python `int` of a
non-negative float is its floor; if `max_seg_angle` is zero the Python
division raises `ZeroDivisionError`), and equal-angular-step sampling
from (but excluding) the start up to and including the end. -/
def segment_arc (start stop center : ℝ × ℝ) (clockwise : Bool) (tolerance : ℝ) :
    Except PyErr (List (ℝ × ℝ)) := do
  let sx := start.1; let sy := start.2
  let ex := stop.1; let ey := stop.2
  let cx := center.1; let cy := center.2
  let rs := hypot2 (sx - cx) (sy - cy)
  let re := hypot2 (ex - cx) (ey - cy)
  if rs = 0 ∨ re = 0 then
    throw (.valueError "Arc radius is zero")
  let start_ang := atan2 (sy - cy) (sx - cx)
  let end_ang := atan2 (ey - cy) (ex - cx)
  let is_full_circle := |sx - ex| < 1e-9 ∧ |sy - ey| < 1e-9
  let sweep : ℝ :=
    if is_full_circle then (if clockwise then -(2 * Real.pi) else 2 * Real.pi)
    else adjustSweep clockwise (end_ang - start_ang)
  let arc_length := |sweep| * rs
  if arc_length = 0 then
    return []
  let max_seg_angle := 2 * Real.arccos (max 0.0 (1 - tolerance / rs))
  if max_seg_angle = 0 then
    throw .zeroDivisionError
  let segments : ℕ := max 1 (⌊|sweep| / max_seg_angle⌋.toNat)
  return (List.range segments).map (arcPointAt cx cy rs start_ang sweep segments)

/-- arc.py: the 2-d cross product used by the local `is_clockwise`
helper of `compute_arc_center_from_r`:
`(x0 - cx) * (y1 - cy) - (y0 - cy) * (x1 - cx)`. -/
def arcCross (start stop c : ℝ × ℝ) : ℝ :=
  (start.1 - c.1) * (stop.2 - c.2) - (start.2 - c.2) * (stop.1 - c.1)

/-- arc.py: candidate center `(cx1, cy1) = midpoint + n * h` of
`compute_arc_center_from_r`. -/
def arcCenter1 (start stop : ℝ × ℝ) (r : ℝ) : ℝ × ℝ :=
  let dx := stop.1 - start.1
  let dy := stop.2 - start.2
  let chord_len := hypot2 dx dy
  let mx := (start.1 + stop.1) / 2
  let my := (start.2 + stop.2) / 2
  let h := Real.sqrt (|r| ^ 2 - (chord_len / 2) ^ 2)
  (mx + (-dy / chord_len) * h, my + (dx / chord_len) * h)

/-- arc.py: candidate center `(cx2, cy2) = midpoint - n * h` of
`compute_arc_center_from_r`. -/
def arcCenter2 (start stop : ℝ × ℝ) (r : ℝ) : ℝ × ℝ :=
  let dx := stop.1 - start.1
  let dy := stop.2 - start.2
  let chord_len := hypot2 dx dy
  let mx := (start.1 + stop.1) / 2
  let my := (start.2 + stop.2) / 2
  let h := Real.sqrt (|r| ^ 2 - (chord_len / 2) ^ 2)
  (mx - (-dy / chord_len) * h, my - (dx / chord_len) * h)

/-- arc.py: `compute_arc_center_from_r`.

R-format arc center: raises on a zero-length chord and on
`chord > 2|R|`; otherwise picks between the two candidate centers via
the `is_clockwise` cross-product test (`cross < 0` means clockwise) and
flips the choice when `R` is negative. -/
def compute_arc_center_from_r (start stop : ℝ × ℝ) (r : ℝ) (clockwise : Bool) :
    Except PyErr (ℝ × ℝ) := do
  let dx := stop.1 - start.1
  let dy := stop.2 - start.2
  let chord_len := hypot2 dx dy
  let r_abs := |r|
  if chord_len = 0 then
    throw (.valueError "Arc start and end points are identical")
  if chord_len > 2 * r_abs then
    throw (.valueError "Arc radius too small for given endpoints")
  let c1 := arcCenter1 start stop r
  let c2 := arcCenter2 start stop r
  let center :=
    if clockwise then (if arcCross start stop c1 < 0 then c1 else c2)
    else (if ¬(arcCross start stop c1 < 0) then c1 else c2)
  let center := if r < 0 then (if center = c1 then c2 else c1) else center
  return center

/-- parser.py output record: axis/parameter words, G numbers, M numbers. -/
structure ParsedRecord where
  words : Words
  gcodes : List ℤ
  mcodes : List ℤ
  deriving DecidableEq

/-- Component read `v[i]` on a 3-tuple (Python list indexing). -/
def vget (v : Vec3) (i : ℕ) : ℝ :=
  match i with
  | 0 => v.1
  | 1 => v.2.1
  | _ => v.2.2

/-- Component write `v[i] = x` on a 3-tuple (Python list assignment). -/
def vset (v : Vec3) (i : ℕ) (x : ℝ) : Vec3 :=
  match i with
  | 0 => (x, v.2.1, v.2.2)
  | 1 => (v.1, x, v.2.2)
  | _ => (v.1, v.2.1, x)

/-- interpreter.py: `CNCInterpreter.apply_work_offset` (adds the active
WCS offset componentwise). -/
def apply_work_offset (st : CNCModalState) (position : Vec3) : Vec3 :=
  let o := st.work_offsets st.active_wcs
  (position.1 + o.1, position.2.1 + o.2.1, position.2.2 + o.2.2)

/-- interpreter.py: `CNCInterpreter._handle_g` modal dispatch. -/
def handle_g (st : CNCModalState) (g : ℤ) : CNCModalState :=
  if g = 0 ∨ g = 1 then
    let m := if g = 0 then MotionType.RAPID else MotionType.LINEAR
    { st with motion_mode := some m }
  else if g = 2 ∨ g = 3 then
    let m := if g = 2 then MotionType.ARC_CW else MotionType.ARC_CCW
    { st with motion_mode := some m }
  else if g = 90 ∨ g = 91 then st.set_distance_mode ("G" ++ toString g)
  else if g = 20 ∨ g = 21 then st.set_units ("G" ++ toString g)
  else if g = 17 ∨ g = 18 ∨ g = 19 then st.set_plane ("G" ++ toString g)
  else st

/-- interpreter.py: the plane → axis mapping of the arc branch
(`ax, ay, az, ia, ib`), with the `RuntimeError` raised for an
unsupported plane string. -/
def planeAxes (plane : String) : Except PyErr (ℕ × ℕ × ℕ × String × String) :=
  if plane = "G17" then .ok (0, 1, 2, "I", "J")
  else if plane = "G18" then .ok (0, 2, 1, "I", "K")
  else if plane = "G19" then .ok (1, 2, 0, "J", "K")
  else .error (.runtimeError "Unsupported plane")

/-- interpreter.py: the planar polyline length accumulation
(`for i in range(len(points) - 1): xy_len += hypot(...)`). -/
def xyLen : List (ℝ × ℝ) → ℝ
  | a :: b :: rest => hypot2 (b.1 - a.1) (b.2 - a.2) + xyLen (b :: rest)
  | _ => 0

/-- interpreter.py: the `for i, (a, b) in enumerate(points)` emission
loop of the arc branch, carrying `prev`, `traveled_xy` and the previous
planar point (used by the `i > 0` delta).  Helical Z is distributed by
accumulated in-plane arc-length fraction; with a degenerate `xy_len`
the fraction is pinned to 1. -/
def arcEmitLoop (ax ay az : ℕ) (xy_len z0 dz_total feed : ℝ) :
    List (ℝ × ℝ) → Vec3 → ℝ → Option (ℝ × ℝ) → List MotionPrimitive
  | [], _, _, _ => []
  | (a, b) :: rest, prev, traveled, prevPt =>
    let tf : ℝ × ℝ :=
      if xy_len > 0 then
        let t2 :=
          match prevPt with
          | none => traveled
          | some pp => traveled + hypot2 (a - pp.1) (b - pp.2)
        (t2, t2 / xy_len)
      else (traveled, 1.0)
    let next_pt := vset (vset (vset prev ax a) ay b) az (z0 + dz_total * tf.2)
    MotionPrimitive.mk MotionType.LINEAR prev next_pt (some feed)
      :: arcEmitLoop ax ay az xy_len z0 dz_total feed rest next_pt tf.1 (some (a, b))

/-- interpreter.py: the arc-motion part of the generation block of
`interpret` (center resolution, segmentation, helical expansion).
Returns the extended `primitives` list. -/
def arcGen (st : CNCModalState) (target : Words) (pos stop : Vec3)
    (prims : List MotionPrimitive) : Except PyErr (List MotionPrimitive) := do
  let (ax, ay, az, ia, ib) ← planeAxes st.plane
  let a0 := vget pos ax; let b0 := vget pos ay
  let a1 := vget stop ax; let b1 := vget stop ay
  let clockwise := st.motion_mode = some MotionType.ARC_CW
  let center ←
    if target.hasKey "R" then
      compute_arc_center_from_r (a0, b0) (a1, b1)
        ((target.get "R" : ℝ) * st.units_scale) clockwise
    else
      pure (a0 + (target.getDefault ia 0 : ℝ) * st.units_scale,
        b0 + (target.getDefault ib 0 : ℝ) * st.units_scale)
  let points ← segment_arc (a0, b0) (a1, b1) center clockwise st.arc_tolerance
  let xy_len := xyLen points
  let z0 := vget pos az
  let z1 := vget stop az
  let dz_total := z1 - z0
  let _total_len := hypot2 xy_len dz_total   -- computed but unused in the source
  return prims ++ arcEmitLoop ax ay az xy_len z0 dz_total st.feedrate points pos 0 none

/-- interpreter.py: the `for letter, value in words.items()` loop of
`interpret`.

Faithful to the mis-indented source: the whole motion-generation block
(lines 86-211, starting at `start_prog = ...`) is indented INSIDE this
loop, so it executes once per word.  The Linear/Rapid branch passes
`max_segment_time=self.state.max_segment_time` to `segment_linear`;
`CNCModalState` defines no such attribute, so that access raises
`AttributeError("max_segment_time")` before `segment_linear` runs. -/
def interpretWordLoop (st : CNCModalState) (target : Words)
    (prims : List MotionPrimitive) :
    List (String × ℚ) → Except PyErr (CNCModalState × Words × List MotionPrimitive)
  | [] => .ok (st, target, prims)
  | (letter, value) :: rest => do
    let stTarget : CNCModalState × Words :=
      if letter ∈ ["X", "Y", "Z", "I", "J", "K", "R"] then
        (st, target.set letter value)
      else if letter = "F" then (st.update_feedrate (value : ℝ), target)
      else (st, target)
    let st := stTarget.1
    let target := stTarget.2
    -- generation block (runs each iteration due to the source indentation)
    let start_prog := st.position
    let end_prog ← st.resolve_target target
    let start := apply_work_offset st start_prog
    let stop := apply_work_offset st end_prog
    let prims ←
      if st.motion_mode = some MotionType.ARC_CW
          ∨ st.motion_mode = some MotionType.ARC_CCW then
        arcGen st target start stop prims
      else
        throw (.attributeError "max_segment_time")
    interpretWordLoop st target prims rest

/-- interpreter.py: `CNCInterpreter.interpret`.

`if not parsed: return []` handles a `None` record (a parsed record
dictionary is always truthy).  G-codes are applied first, then the word
loop runs.  The function body has no final `return`, so for every
truthy record Python returns `None` — modelled as payload `none`
(`some list` models an actual returned list).  The accumulated
`primitives` are discarded and `self.state.position` is never
assigned anywhere in `interpret`. -/
def interpret (st : CNCModalState) (parsed : Option ParsedRecord) :
    Except PyErr (Option (List MotionPrimitive) × CNCModalState) :=
  match parsed with
  | none => .ok (some [], st)
  | some r => do
    let st := r.gcodes.foldl handle_g st
    let (st', _target, _prims) ← interpretWordLoop st [] [] r.words
    return (none, st')

/-- planner.py: `EPS = 1e-12`. -/
def EPS : ℝ := 1e-12

/-- planner.py: `PlannedPrimitive` dataclass (speeds in mm/s). -/
structure PlannedPrimitive where
  primitive : MotionPrimitive
  v_entry : ℝ
  v_exit : ℝ
  v_peak : ℝ
  accel : ℝ
  t_accel : ℝ
  t_cruise : ℝ
  t_decel : ℝ

/-- planner.py: `_MoveInfo` dataclass (per-move precomputation). -/
structure MoveInfo where
  p : MotionPrimitive
  L : ℝ
  u : Vec3
  vmax : ℝ
  accel : ℝ
  min_time : ℝ
  delta_v2 : ℝ

/-- Placeholder `MoveInfo` for out-of-range list reads (never the value
of an in-range index in any statement proved below). -/
def junkMove : MoveInfo :=
  ⟨⟨MotionType.RAPID, (0, 0, 0), (0, 0, 0), none⟩, 0, (0, 0, 0), 0, 0, 0, 0⟩

/-- List read `moves[i]` with the junk default. -/
def mvD (moves : List MoveInfo) (i : ℕ) : MoveInfo := moves.getD i junkMove

/-- planner.py: `_clamp`. -/
def pyClamp (x lo hi : ℝ) : ℝ := max lo (min hi x)

/-- planner.py: `_unit_vec`. -/
def unit_vec (p : MotionPrimitive) : Vec3 :=
  let dx := p.stop.1 - p.start.1
  let dy := p.stop.2.1 - p.start.2.1
  let dz := p.stop.2.2 - p.start.2.2
  let L := Real.sqrt (dx * dx + dy * dy + dz * dz)
  if L < EPS then (0.0, 0.0, 0.0) else (dx / L, dy / L, dz / L)

/-- planner.py: `_effective_path_accel` (per-axis accel limiting; the
`candidates` list collects `a_i / |u_i|` for axes with `|u_i| > EPS`
and the minimum is taken when non-empty). -/
def effective_path_accel (u : Vec3) (default_accel : ℝ)
    (axis_accels : Option Vec3) : ℝ :=
  match axis_accels with
  | none => default_accel
  | some aa =>
    let ux := |u.1|; let uy := |u.2.1|; let uz := |u.2.2|
    let candidates : List ℝ :=
      (if ux > EPS then [aa.1 / ux] else [])
        ++ (if uy > EPS then [aa.2.1 / uy] else [])
        ++ (if uz > EPS then [aa.2.2 / uz] else [])
    match candidates with
    | [] => default_accel
    | c :: cs => cs.foldl min c

/-- planner.py: `_junction_v2`.  `none` models the `float("inf")`
returned for a nearly straight / degenerate junction; otherwise the
minimum of the JD cap and the two short-segment caps. -/
def junction_v2 (prev cur : MoveInfo) (jd accel : ℝ) : Option ℝ :=
  let u1 := prev.u
  let u2 := cur.u
  let dot := pyClamp (u1.1 * u2.1 + u1.2.1 * u2.2.1 + u1.2.2 * u2.2.2) (-1.0) 1.0
  let junction_cos_theta := -dot
  let sin_theta_d2 := Real.sqrt (max (0.5 * (1.0 - junction_cos_theta)) 0.0)
  let cos_theta_d2 := Real.sqrt (max (0.5 * (1.0 + junction_cos_theta)) 0.0)
  let one_minus_sin := 1.0 - sin_theta_d2
  if one_minus_sin ≤ EPS ∨ cos_theta_d2 ≤ EPS then none
  else
    let R := sin_theta_d2 / one_minus_sin
    let v2_jd := accel * (jd * R)
    let quarter_tan := 0.25 * sin_theta_d2 / cos_theta_d2
    let v2_cent_cur := cur.delta_v2 * quarter_tan
    let v2_cent_prev := prev.delta_v2 * quarter_tan
    some (min (min v2_jd v2_cent_cur) v2_cent_prev)

/-- planner.py: the junction contribution folded into `cap2[i]` for an
interior boundary `1 ≤ i ≤ n-1` by the loop at lines 155-163:
`v2 = min(_junction_v2(...), prev.vmax², cur.vmax²)` with the
`float("inf")` case collapsing to the two vmax² clamps. -/
def boundary_jcap (moves : List MoveInfo) (jd : ℝ) (i : ℕ) : ℝ :=
  let prev := mvD moves (i - 1)
  let cur := mvD moves i
  let a_junc := min prev.accel cur.accel
  match junction_v2 prev cur jd a_junc with
  | none => min (prev.vmax * prev.vmax) (cur.vmax * cur.vmax)
  | some v => min (min v (prev.vmax * prev.vmax)) (cur.vmax * cur.vmax)

/-- planner.py: `cap2` after the initialisation of `_plan_window`
(lines 139-163), as a function of the boundary index.  The Python code
initialises every entry to `float("inf")`, writes `max(0, start_v2)`
at 0 and the stop condition at `n`, clamps boundary `i` with the vmax²
of the moves on each side, and folds the junction caps in; after those
passes every entry in `0..n` is finite and equals the value below
(`min` with `inf` discards the `inf`). -/
def cap2 (moves : List MoveInfo) (jd start_v2 : ℝ) (stop_at_end : Bool)
    (i : ℕ) : ℝ :=
  let n := moves.length
  if i = 0 then min (max 0.0 start_v2) ((mvD moves 0).vmax * (mvD moves 0).vmax)
  else if i < n then
    min (min ((mvD moves (i - 1)).vmax * (mvD moves (i - 1)).vmax)
      ((mvD moves i).vmax * (mvD moves i).vmax)) (boundary_jcap moves jd i)
  else
    if stop_at_end then min 0.0 ((mvD moves (n - 1)).vmax * (mvD moves (n - 1)).vmax)
    else (mvD moves (n - 1)).vmax * (mvD moves (n - 1)).vmax

/-- planner.py: the backward reachability pass of `_plan_window`
(lines 166-174): `for i in reversed(range(1, n)): v2b[i] =
min(cap2[i], v2b[i+1] + 2*a*L)`.  Index 0 is never raised or lowered
(the carry-in is authoritative) and indices ≥ n keep their cap. -/
def v2back (moves : List MoveInfo) (jd start_v2 : ℝ) (stop_at_end : Bool)
    (i : ℕ) : ℝ :=
  if i = 0 ∨ moves.length ≤ i then cap2 moves jd start_v2 stop_at_end i
  else
    min (cap2 moves jd start_v2 stop_at_end i)
      (v2back moves jd start_v2 stop_at_end (i + 1)
        + 2.0 * (mvD moves i).accel * (mvD moves i).L)
termination_by moves.length - i
decreasing_by omega

/-- planner.py: the forward reachability pass of `_plan_window`
(lines 181-185): `for i in range(n): v2b[i+1] = min(v2b[i+1],
v2b[i] + 2*a*L)`, applied on top of the backward-pass values. -/
def v2fwd (moves : List MoveInfo) (jd start_v2 : ℝ) (stop_at_end : Bool) :
    ℕ → ℝ
  | 0 => v2back moves jd start_v2 stop_at_end 0
  | i + 1 =>
    min (v2back moves jd start_v2 stop_at_end (i + 1))
      (v2fwd moves jd start_v2 stop_at_end i
        + 2.0 * (mvD moves i).accel * (mvD moves i).L)

/-- planner.py: the per-move trapezoid construction of `_plan_window`
(lines 189-233), including the degenerate `a <= EPS` branch. -/
def plannedAt (moves : List MoveInfo) (jd start_v2 : ℝ) (stop_at_end : Bool)
    (i : ℕ) : PlannedPrimitive :=
  let m := mvD moves i
  let L := m.L
  let a := m.accel
  let v_in2 := max 0.0 (v2fwd moves jd start_v2 stop_at_end i)
  let v_out2 := max 0.0 (v2fwd moves jd start_v2 stop_at_end (i + 1))
  let vmax2 := m.vmax * m.vmax
  let v_peak2 := min vmax2 (a * L + 0.5 * (v_in2 + v_out2))
  let v_in := Real.sqrt v_in2
  let v_out := Real.sqrt v_out2
  let v_peak := Real.sqrt (max 0.0 v_peak2)
  if a ≤ EPS then
    let t_cruise := if v_peak > EPS then L / v_peak else 0.0
    ⟨m.p, v_in, v_out, v_peak, a, 0.0, t_cruise, 0.0⟩
  else
    let d_accel := (v_peak2 - v_in2) / (2.0 * a)
    let d_decel := (v_peak2 - v_out2) / (2.0 * a)
    let d_cruise := max 0.0 (L - d_accel - d_decel)
    let t_accel := (v_peak - v_in) / a
    let t_decel := (v_peak - v_out) / a
    let t_cruise := if v_peak > EPS then d_cruise / v_peak else 0.0
    ⟨m.p, v_in, v_out, v_peak, a, t_accel, t_cruise, t_decel⟩

/-- planner.py: `_plan_window` (empty window gives an empty plan,
otherwise one `PlannedPrimitive` per move). -/
def plan_window (moves : List MoveInfo) (jd start_v2 : ℝ) (stop_at_end : Bool) :
    List PlannedPrimitive :=
  match moves with
  | [] => []
  | _ => (List.range moves.length).map (plannedAt moves jd start_v2 stop_at_end)

/-- planner.py: class `CNCPlanner` — configuration plus the mutable
window state (`_window`, `_window_time`, `_carry_in_v2`). -/
structure CNCPlanner where
  max_velocity : ℝ
  max_accel : ℝ
  junction_deviation : ℝ
  buffer_time : ℝ
  keep_tail_moves : ℕ
  max_window_moves : ℕ
  axis_accels : Option Vec3
  window : List MoveInfo
  window_time : ℝ
  carry_in_v2 : ℝ

/-- planner.py: `CNCPlanner.__init__` (with the `max(1, ...)` and
`max(10, ...)` coercions on the window knobs and the empty initial
window). -/
def initPlanner (max_velocity max_accel junction_deviation buffer_time : ℝ)
    (keep_tail_moves max_window_moves : ℕ) (axis_accels : Option Vec3) :
    CNCPlanner where
  max_velocity := max_velocity
  max_accel := max_accel
  junction_deviation := junction_deviation
  buffer_time := buffer_time
  keep_tail_moves := max 1 keep_tail_moves
  max_window_moves := max 10 max_window_moves
  axis_accels := axis_accels
  window := []
  window_time := 0.0
  carry_in_v2 := 0.0

/-- planner.py: `CNCPlanner.reset`. -/
def CNCPlanner.reset (pl : CNCPlanner) : CNCPlanner :=
  { pl with window := [], window_time := 0.0, carry_in_v2 := 0.0 }

/-- planner.py: the segment speed limit `v_cmd` computed by
`_make_moveinfo` (lines 326-334): `max_velocity` for a Rapid move or a
missing / non-positive feedrate, otherwise
`min(feedrate / 60, max_velocity)`. -/
def vmaxOf (pl : CNCPlanner) (prim : MotionPrimitive) : ℝ :=
  if prim.motion = MotionType.RAPID then pl.max_velocity
  else
    match prim.feedrate with
    | none => pl.max_velocity
    | some f => if f ≤ 0.0 then pl.max_velocity else min (f / 60.0) pl.max_velocity

/-- planner.py: `CNCPlanner._make_moveinfo`.  Drops primitives shorter
than `EPS`; speed limit from the motion type / feedrate; effective
path accel; optimistic time; `delta_v2 = 2*L*a`. -/
def make_moveinfo (pl : CNCPlanner) (prim : MotionPrimitive) : Option MoveInfo :=
  let L := prim.length
  if L < EPS then none
  else
    let v_cmd := vmaxOf pl prim
    let u := unit_vec prim
    let a := effective_path_accel u pl.max_accel pl.axis_accels
    let min_time := if v_cmd > EPS then L / v_cmd else 0.0
    let delta_v2 := 2.0 * L * a
    some ⟨prim, L, u, v_cmd, a, min_time, delta_v2⟩

/-- planner.py: the `while flush_count < max_flush` loop of
`_flush_if_ready` choosing how many head moves to commit. -/
def flushCountLoop (force : Bool) (buffer_time : ℝ) (window : List MoveInfo)
    (remaining : ℝ) (fc max_flush : ℕ) : ℕ :=
  if fc < max_flush then
    let next_remaining := remaining - (mvD window fc).min_time
    if ¬force ∧ next_remaining < buffer_time then fc
    else flushCountLoop force buffer_time window next_remaining (fc + 1) max_flush
  else fc
termination_by max_flush - fc
decreasing_by omega

/-- planner.py: `CNCPlanner._flush_if_ready`.  Plans the whole window
with `stop_at_end=True`, commits a prefix, updates the carry-in v² to
the planned `v_entry` of the new window head, pops the committed moves
and clamps the remaining optimistic time at zero. -/
def CNCPlanner.flush_if_ready (pl : CNCPlanner) (force : Bool) :
    CNCPlanner × List PlannedPrimitive :=
  if pl.window.length ≤ pl.keep_tail_moves then (pl, [])
  else if ¬force ∧ pl.window_time < pl.buffer_time then (pl, [])
  else
    let planned_all := plan_window pl.window pl.junction_deviation pl.carry_in_v2 true
    let max_flush := pl.window.length - pl.keep_tail_moves
    let fc := flushCountLoop force pl.buffer_time pl.window pl.window_time 0 max_flush
    if fc = 0 then (pl, [])
    else
      let committed := planned_all.take fc
      let carry :=
        if fc < planned_all.length then
          let new_head := planned_all.getD fc (plannedAt [] 0 0 true 0)
          new_head.v_entry * new_head.v_entry
        else 0.0
      let wt := pl.window_time - (((pl.window.take fc).map MoveInfo.min_time).sum)
      let wt := if wt < 0 then 0.0 else wt
      let w' := pl.window.drop fc
      ({ pl with window := w', window_time := wt, carry_in_v2 := carry }, committed)

/-- planner.py: `CNCPlanner.push`. -/
def CNCPlanner.push (pl : CNCPlanner) (prim : MotionPrimitive) :
    CNCPlanner × List PlannedPrimitive :=
  match make_moveinfo pl prim with
  | none => (pl, [])
  | some mi =>
    let w' := pl.window ++ [mi]
    let wt' := pl.window_time + mi.min_time
    let pl := { pl with window := w', window_time := wt' }
    let force := pl.max_window_moves ≤ pl.window.length
    pl.flush_if_ready force

/-- planner.py: `CNCPlanner.finish` (plan the remaining window with a
forced final stop, then reset). -/
def CNCPlanner.finish (pl : CNCPlanner) : CNCPlanner × List PlannedPrimitive :=
  match pl.window with
  | [] => (pl, [])
  | _ =>
    (pl.reset, plan_window pl.window pl.junction_deviation pl.carry_in_v2 true)

/-- Fold a list of raw primitives through `push`, accumulating every
committed `PlannedPrimitive` in order. -/
def pushAll (pl : CNCPlanner) : List MotionPrimitive →
    CNCPlanner × List PlannedPrimitive
  | [] => (pl, [])
  | p :: ps =>
    let r := pl.push p
    let rest := pushAll r.1 ps
    (rest.1, r.2 ++ rest.2)

/-- The full stream of planned primitives a planner emits for a pushed
sequence: everything committed by the `push` calls followed by the
`finish` output. -/
def planStream (pl : CNCPlanner) (ps : List MotionPrimitive) :
    List PlannedPrimitive :=
  let r := pushAll pl ps
  r.2 ++ (r.1.finish).2

/-- parser.py: `line.split(';')[0]` — everything before the first
semicolon. -/
def stripSemicolon (cs : List Char) : List Char :=
  cs.takeWhile (fun c => c ≠ ';')

/-- parser.py: `re.sub(r'\(.*?\)', '', line)` — remove each
non-greedy parenthesised group (an opening parenthesis with no later
closing parenthesis is kept, as the regex cannot match there). -/
def removeParens : List Char → List Char
  | [] => []
  | c :: rest =>
    if c = '(' then
      if rest.contains ')' then
        removeParens ((rest.dropWhile (fun d => d ≠ ')')).drop 1)
      else c :: removeParens rest
    else c :: removeParens rest
termination_by cs => cs.length
decreasing_by
  · have h1 : ((rest.dropWhile (fun d => d ≠ ')')).drop 1).length
        ≤ (rest.dropWhile (fun d => d ≠ ')')).length := by
      simp [List.length_drop]
    have h2 : (rest.dropWhile (fun d => d ≠ ')')).length ≤ rest.length :=
      (List.IsSuffix.sublist (List.dropWhile_suffix _)).length_le
    simp only [List.length_cons]
    omega
  · simp only [List.length_cons]; omega
  · simp only [List.length_cons]; omega

/-- Python whitespace (the characters `str.strip` removes). -/
def isSpaceChar (c : Char) : Bool :=
  c = ' ' ∨ c = '\t' ∨ c = '\n' ∨ c = '\r' ∨ c = '\x0b' ∨ c = '\x0c'

/-- Python `str.strip` on a character list. -/
def pyStrip (cs : List Char) : List Char :=
  ((cs.dropWhile isSpaceChar).reverse.dropWhile isSpaceChar).reverse

/-- Decimal digit test for the parser regex. -/
def isDigitCh (c : Char) : Bool := '0' ≤ c ∧ c ≤ '9'

/-- Uppercase-letter test for the parser regex (the line has already
been uppercased). -/
def isUpperCh (c : Char) : Bool := 'A' ≤ c ∧ c ≤ 'Z'

/-- Value of a digit string. -/
def digitsValue (ds : List Char) : ℕ :=
  ds.foldl (fun n c => 10 * n + (c.toNat - '0'.toNat)) 0

/-- parser.py: match the numeric part `[-+]?[0-9]*\.?[0-9]+` of
`WORD_RE` at the head of `cs` (with the regex backtracking semantics:
a dot with no following digit is not consumed).  Returns the parsed
value as an exact rational together with the number of characters
consumed, or `none` when the regex cannot match here. -/
def matchNumber (cs : List Char) : Option (ℚ × ℕ) :=
  let sgn : ℚ × ℕ × List Char :=
    match cs with
    | '-' :: r => (-1, 1, r)
    | '+' :: r => (1, 1, r)
    | _ => (1, 0, cs)
  let sign := sgn.1
  let s := sgn.2.1
  let cs1 := sgn.2.2
  let intd := cs1.takeWhile isDigitCh
  let cs2 := cs1.drop intd.length
  match cs2 with
  | '.' :: cs3 =>
    let fracd := cs3.takeWhile isDigitCh
    if fracd.isEmpty then
      if intd.isEmpty then none
      else some (sign * (digitsValue intd : ℚ), s + intd.length)
    else
      some (sign * ((digitsValue intd : ℚ)
          + (digitsValue fracd : ℚ) / (10 : ℚ) ^ fracd.length),
        s + intd.length + 1 + fracd.length)
  | _ =>
    if intd.isEmpty then none
    else some (sign * (digitsValue intd : ℚ), s + intd.length)

/-- parser.py: `WORD_RE.findall` — non-overlapping left-to-right scan
for letter/number words. -/
def findWords : List Char → List (Char × ℚ)
  | [] => []
  | c :: rest =>
    if isUpperCh c then
      match matchNumber rest with
      | some (v, k) => (c, v) :: findWords (rest.drop k)
      | none => findWords rest
    else findWords rest
termination_by cs => cs.length
decreasing_by
  · simp only [List.length_cons, List.length_drop]; omega
  · simp only [List.length_cons]; omega
  · simp only [List.length_cons]; omega

/-- Python `int(x)` on an exact rational float value: truncation
toward zero. -/
def pyInt (q : ℚ) : ℤ :=
  if q < 0 then -(⌊-q⌋) else ⌊q⌋

/-- parser.py: `parse_gcode_line` — strip comments, uppercase, return
`None` for an empty line, otherwise collect words, G numbers and
M numbers (duplicate non-G/M letters resolve last-write-wins through
the dict update). -/
def parse_gcode_line (line : String) : Option ParsedRecord :=
  let cs := stripSemicolon line.data
  let cs := removeParens cs
  let cs := (pyStrip cs).map Char.toUpper
  if cs.isEmpty then none
  else
    some ((findWords cs).foldl
      (fun r lv =>
        if lv.1 = 'G' then { r with gcodes := r.gcodes ++ [pyInt lv.2] }
        else if lv.1 = 'M' then { r with mcodes := r.mcodes ++ [pyInt lv.2] }
        else { r with words := r.words.set (String.mk [lv.1]) lv.2 })
      ⟨[], [], []⟩)

/-- streamer.py: `GCodeStreamer` state — the remaining file contents
when open (`none` models a closed/absent file handle), the line
counter, and the EOF flag. -/
structure GCodeStreamer where
  file : Option (List String)
  line_number : ℕ
  eof : Bool

/-- Head-character test on a string (Python `startswith` with a
single-character argument). -/
def startsChar (s : String) (c : Char) : Bool :=
  match s.data with
  | [] => false
  | d :: _ => d = c

/-- streamer.py: the `while True` read loop of `next_line`, skipping
blank and comment-only lines. -/
def nextLineLoop (ln : ℕ) : List String →
    Option String × ℕ × Bool × List String
  | [] => (none, ln, true, [])
  | l :: rest =>
    let ln' := ln + 1
    let t := String.mk (pyStrip l.data)
    if t.data.isEmpty ∨ startsChar t ';' ∨ startsChar t '(' then
      nextLineLoop ln' rest
    else (some t, ln', false, rest)

/-- streamer.py: `GCodeStreamer.next_line`. -/
def GCodeStreamer.next_line (s : GCodeStreamer) :
    Option String × GCodeStreamer :=
  match s.file with
  | none => (none, s)
  | some lines =>
    if s.eof then (none, s)
    else
      let r := nextLineLoop s.line_number lines
      (r.1, { s with line_number := r.2.1, eof := r.2.2.1, file := some r.2.2.2 })

/-- controller.py: `ControllerState` enumeration. -/
inductive ControllerState where
  | IDLE
  | RUNNING
  | HOLD
  | CANCELLED
  deriving DecidableEq

/-- controller.py: class `CNCController`.  The executor sink is
modelled by the `executed` list (the order in which `execute` was
called); the remaining fields are the attributes `__init__` creates. -/
structure CNCController where
  state : ControllerState
  ready_queue : List PlannedPrimitive
  lookahead_size : ℕ
  buffer : List MotionPrimitive
  eof : Bool
  total_length : ℝ
  completed_length : ℝ
  last_reported : ℝ
  planner : Option CNCPlanner
  executed : List MotionPrimitive

/-- controller.py: `CNCController.__init__` (streaming fields;
`lookahead_size = 20`, `_last_reported = -1`). -/
def initController (planner : Option CNCPlanner) : CNCController where
  state := ControllerState.IDLE
  ready_queue := []
  lookahead_size := 20
  buffer := []
  eof := false
  total_length := 0.0
  completed_length := 0.0
  last_reported := -1
  planner := planner
  executed := []

/-- controller.py: `CNCController._execute_primitive`.

Raises `RuntimeError` when the primitive's feedrate is `None` — the
raise precedes both the `executor.execute(p)` call and the
`completed_length` update, so the error carries the unchanged
controller.  Otherwise the executor receives the primitive, the
completed length grows by the primitive length, and the 10-mm progress
reporting threshold is maintained. -/
def execute_primitive (c : CNCController) (p : MotionPrimitive) :
    Except (PyErr × CNCController) (CNCController × Bool) :=
  match p.feedrate with
  | none => .error (.runtimeError "Feedrate not resolved at execution time", c)
  | some _ =>
    let c1 := { c with executed := c.executed ++ [p],
                       completed_length := c.completed_length + p.length }
    let c2 :=
      if c1.completed_length - c1.last_reported ≥ 10.0 then
        { c1 with last_reported := c1.completed_length }
      else c1
    .ok (c2, true)

/-- controller.py: `CNCController.step` — pops one primitive from the
ready queue (planned mode) or raw buffer (legacy mode) and executes
it; returns `false` without executing when not `RUNNING` or empty.
(The `isinstance` fallback cannot arise in the typed model: the ready
queue holds `PlannedPrimitive` values only.) -/
def CNCController.step (c : CNCController) :
    Except (PyErr × CNCController) (CNCController × Bool) :=
  if c.state ≠ ControllerState.RUNNING then .ok (c, false)
  else
    match c.planner with
    | none =>
      match c.buffer with
      | [] => .ok (c, false)
      | p :: rest => execute_primitive { c with buffer := rest } p
    | some _ =>
      match c.ready_queue with
      | [] => .ok (c, false)
      | item :: rest =>
        execute_primitive { c with ready_queue := rest } item.primitive

/-- controller.py: the planned-mode refill loop of `pump` (lines
212-229).  NOTE the loop condition: it tests EOF, the ready-queue
level and the line budget, but never the controller state — a
cancelled controller keeps reading and pushing.  `interp` models the
duck-typed `interpreter.interpret` collaborator (a total,
list-returning interpreter such as the repository's own
`FakeInterpreter` in test_jd.py). -/
def pumpRefillPlanned (interp : Option ParsedRecord → List MotionPrimitive)
    (c : CNCController) (s : GCodeStreamer) (lines_read max_lines : ℕ) :
    CNCController × GCodeStreamer × ℕ :=
  if h : c.eof = false ∧ c.ready_queue.length < c.lookahead_size
      ∧ lines_read < max_lines then
    match c.planner with
    | none => (c, s, lines_read)   -- unreachable: pump dispatches on planner
    | some pl =>
      let r := s.next_line
      match r.1 with
      | none =>
        let fin := pl.finish
        let q' := c.ready_queue ++ fin.2
        ({ c with eof := true, planner := some fin.1, ready_queue := q' },
          r.2, lines_read)
      | some line =>
        let parsed := parse_gcode_line line
        let prims := interp parsed
        let pc := prims.foldl
          (fun (acc : CNCPlanner × List PlannedPrimitive) p =>
            let pr := acc.1.push p
            (pr.1, acc.2 ++ pr.2)) (pl, [])
        let q' := c.ready_queue ++ pc.2
        let c := { c with planner := some pc.1, ready_queue := q' }
        pumpRefillPlanned interp c r.2 (lines_read + 1) max_lines
  else (c, s, lines_read)
termination_by max_lines - lines_read
decreasing_by omega

/-- controller.py: the legacy-mode refill loop of `pump` (lines
199-210), filling the raw buffer. -/
def pumpRefillLegacy (interp : Option ParsedRecord → List MotionPrimitive)
    (c : CNCController) (s : GCodeStreamer) (lines_read max_lines : ℕ) :
    CNCController × GCodeStreamer × ℕ :=
  if h : c.eof = false ∧ c.buffer.length < c.lookahead_size
      ∧ lines_read < max_lines then
    let r := s.next_line
    match r.1 with
    | none => ({ c with eof := true }, r.2, lines_read)
    | some line =>
      let prims := interp (parse_gcode_line line)
      let c := { c with buffer := c.buffer ++ prims }
      pumpRefillLegacy interp c r.2 (lines_read + 1) max_lines
  else (c, s, lines_read)
termination_by max_lines - lines_read
decreasing_by omega

/-- controller.py: the `while steps < max_steps` execution loop of
`pump` (lines 233-237). -/
def pumpStepsLoop (c : CNCController) (steps max_steps : ℕ) :
    Except (PyErr × CNCController) (CNCController × ℕ) :=
  if h : steps < max_steps then
    match c.step with
    | .error e => .error e
    | .ok (c', did) =>
      if did then pumpStepsLoop c' (steps + 1) max_steps else .ok (c', steps)
  else .ok (c, steps)
termination_by max_steps - steps
decreasing_by omega

/-- controller.py: `CNCController.pump` — one cooperative slice:
refill (legacy or planned mode), then execute up to `max_steps` when
`RUNNING`.  There is no check of the `CANCELLED` state anywhere in
this method.  Returns `(controller, streamer, lines_read, steps)`. -/
def CNCController.pump (c : CNCController) (s : GCodeStreamer)
    (interp : Option ParsedRecord → List MotionPrimitive)
    (max_lines max_steps : ℕ) :
    Except (PyErr × CNCController × GCodeStreamer)
      (CNCController × GCodeStreamer × ℕ × ℕ) :=
  let r :=
    match c.planner with
    | none => pumpRefillLegacy interp c s 0 max_lines
    | some _ => pumpRefillPlanned interp c s 0 max_lines
  let c1 := r.1
  let s1 := r.2.1
  let lines_read := r.2.2
  if c1.state = ControllerState.RUNNING ∧ 0 < max_steps then
    match pumpStepsLoop c1 0 max_steps with
    | .error (e, c') => .error (e, c', s1)
    | .ok (c2, steps) => .ok (c2, s1, lines_read, steps)
  else .ok (c1, s1, lines_read, 0)

/-- controller.py: `CNCController.cancel`. -/
def CNCController.cancel (c : CNCController) : CNCController :=
  if c.state ≠ ControllerState.CANCELLED then
    { c with state := ControllerState.CANCELLED }
  else c

/-- Radial deviation of a planar point from the circle of radius `r`
around `center` (the distance between the point and the circle), used
to express the chordal-tolerance claim. -/
def radialDeviation (center : ℝ × ℝ) (r : ℝ) (p : ℝ × ℝ) : ℝ :=
  |Real.sqrt ((p.1 - center.1) ^ 2 + (p.2 - center.2) ^ 2) - r|

/-- Point of the chord from `p` to `q` at parameter `t ∈ [0, 1]`. -/
def chordPoint (p q : ℝ × ℝ) (t : ℝ) : ℝ × ℝ :=
  (p.1 + (q.1 - p.1) * t, p.2 + (q.2 - p.2) * t)

/-- Sanity bounds on a planner configuration (positive path accel
beyond the `EPS` degeneracy guard, non-negative velocity limit and
junction deviation): the physical-units contract of §4.4 of the spec. -/
def cfgOK (pl : CNCPlanner) : Prop :=
  0 ≤ pl.max_accel ∧ 0 ≤ pl.max_velocity ∧ 0 ≤ pl.junction_deviation
    ∧ (∀ aa, pl.axis_accels = some aa → 0 ≤ aa.1 ∧ 0 ≤ aa.2.1 ∧ 0 ≤ aa.2.2)

/-- Properties every `_make_moveinfo` output enjoys under a sane
configuration: positive length and acceleration, non-negative speed
cap equal to the segment speed limit of its primitive, non-negative
`delta_v2`. -/
def GoodMove (pl : CNCPlanner) (mi : MoveInfo) : Prop :=
  0 ≤ mi.L ∧ 0 ≤ mi.accel ∧ 0 ≤ mi.vmax ∧ 0 ≤ mi.delta_v2
    ∧ mi.vmax = vmaxOf pl mi.p

/-- Basic well-formedness of the planner's inter-commit state: the
window-tail knob is at least one (the constructor coercion), the
carry-in v² is non-negative, zero on an empty window, and bounded by
the window head's speed cap squared. -/
def PlannerWF (pl : CNCPlanner) : Prop :=
  1 ≤ pl.keep_tail_moves
    ∧ 0 ≤ pl.carry_in_v2
    ∧ (pl.window = [] → pl.carry_in_v2 = 0)
    ∧ (∀ hd, pl.window.head? = some hd → pl.carry_in_v2 ≤ hd.vmax * hd.vmax)

/-- The deceleration-reachability invariant on the carry-in v²: it can
always be brought down, across the window head, to the backward-pass
bound of the head junction (boundary 1 of the current window). -/
def carryReach (pl : CNCPlanner) : Prop :=
  ∀ hd, pl.window.head? = some hd →
    pl.carry_in_v2 ≤ 2.0 * hd.accel * hd.L
      + max 0.0 (v2back pl.window pl.junction_deviation 0 true 1)

/-- The speed relations claimed for every emitted `PlannedPrimitive`:
entry and exit bounded by the peak, all non-negative, and the peak at
most the segment speed cap of the wrapped primitive. -/
def PlannedOK (pl : CNCPlanner) (pp : PlannedPrimitive) : Prop :=
  0 ≤ pp.v_entry ∧ pp.v_entry ≤ pp.v_peak ∧ 0 ≤ pp.v_exit
    ∧ pp.v_exit ≤ pp.v_peak ∧ pp.v_peak ≤ vmaxOf pl pp.primitive

/-- Relation between a planner operation's carry-in v² `c`, its emitted
batch `out` and the carry-in v² `c'` it leaves behind: the batch is
internally exit/entry continuous, its first entry speed is `√c`, its
last exit speed is `√c'`, and an empty batch leaves the carry alone.
Composing two such batches yields exit/entry continuity across the
boundary, which is how the planner's global stream is chained. -/
def StreamOK (c : ℝ) (out : List PlannedPrimitive) (c' : ℝ) : Prop :=
  List.Chain' (fun a b => a.v_exit = b.v_entry) out
    ∧ (∀ hd, out.head? = some hd → hd.v_entry = Real.sqrt c)
    ∧ (∀ la, out.getLast? = some la → la.v_exit = Real.sqrt c')
    ∧ (out = [] → c' = c)

/-- The full inter-commit invariant used for the speed-bound claim:
a sane configuration, the basic window well-formedness, every window
move produced by `_make_moveinfo` under that configuration, and the
carry-in deceleration-reachability bound. -/
def PlanInv (pl : CNCPlanner) : Prop :=
  cfgOK pl ∧ PlannerWF pl ∧ (∀ mi ∈ pl.window, GoodMove pl mi) ∧ carryReach pl

end

/-!
## Theorems

Everything below is a statement about the definitions above; helper
lemmas come first, the per-claim theorems are thin wrappers.
-/

/-- C1: the spec claims `resolve_target` applies axis words with unit
scaling — overwrite in absolute mode, add in incremental mode — with
no WCS offset.  The code instead evaluates
`value + self.work_offset[i]` in absolute mode, and `work_offset`
(singular) is an attribute no class in the repository defines, so the
very first absolute-mode resolution of any axis word raises
`AttributeError` (the default modal state is absolute millimetre mode;
the repository's own test test_modal.py exercises exactly this call).
This theorem evaluates the code at that failing input. -/
theorem C1_resolve_target_absolute_raises_attribute_error :
    CNCModalState.init.absolute = true
      ∧ CNCModalState.init.resolve_target [("X", 10)]
          = .error (.attributeError "work_offset") := by
  exact ⟨rfl, rfl⟩

/-- C2: the spec claims `interpret` returns a list of the motion
primitives generated (empty for a modal-only record) and updates the
stored program-space position to each resolved endpoint.  The code
falls off the end of the function for every truthy record, returning
Python `None` (payload `none` here) rather than a list, never assigns
`state.position`, and its Linear/Rapid generation path dies on the
undefined `max_segment_time` attribute before any primitive could be
produced.  Two evaluations: a modal-only `G90` record returns `None`
with the state (position included) unchanged, and an incremental
`G91 G1 X5` record — whose target does get resolved — fails with
`AttributeError("max_segment_time")`, with no position update. -/
theorem C2_interpret_returns_none_and_never_updates_position :
    interpret CNCModalState.init (some ⟨[], [90], []⟩)
        = .ok (none, CNCModalState.init)
      ∧ interpret CNCModalState.init (some ⟨[("X", 5)], [91, 1], []⟩)
          = .error (.attributeError "max_segment_time") := by
  exact ⟨rfl, rfl⟩

/-- C10: `_execute_primitive` raises exactly when the primitive's
feedrate is `None`, for every motion type (Rapid included); the error
carries the untouched controller (the raise precedes the
`executor.execute` call and the `completed_length` update).  With a
feedrate present, the executor is called exactly once with the
primitive and `completed_length` grows by its length. -/
theorem C10_execute_primitive_raises_iff_feedrate_none :
    (∀ (c : CNCController) (m : MotionType) (a b : Vec3),
      execute_primitive c ⟨m, a, b, none⟩
        = .error (.runtimeError "Feedrate not resolved at execution time", c))
    ∧ (∀ (c : CNCController) (m : MotionType) (a b : Vec3) (f : ℝ),
      ∃ c', execute_primitive c ⟨m, a, b, some f⟩ = .ok (c', true)
        ∧ c'.executed = c.executed ++ [⟨m, a, b, some f⟩]
        ∧ c'.completed_length
            = c.completed_length + MotionPrimitive.length ⟨m, a, b, some f⟩
        ∧ c'.state = c.state) := by
  constructor
  · intro c m a b
    rfl
  · intro c m a b f
    unfold execute_primitive
    dsimp only
    split
    · exact ⟨_, rfl, rfl, rfl, rfl⟩
    · exact ⟨_, rfl, rfl, rfl, rfl⟩

/-- C6 counterexample: the claim says interpreting a `G1` motion with
no previously-set feedrate fails with a ModalError.  In the code the
fresh modal state's feedrate is the concrete default `1000` (there is
no unset-feedrate representation and no ModalError anywhere), and
interpreting `G1 X5` on the fresh state fails for an unrelated reason:
the `AttributeError` on the undefined `work_offset` attribute. -/
theorem C6_counterexample_default_feedrate_and_attribute_error :
    CNCModalState.init.feedrate = 1000
      ∧ interpret CNCModalState.init (some ⟨[("X", 5)], [1], []⟩)
          = .error (.attributeError "work_offset") := by
  exact ⟨rfl, rfl⟩

/-- C6 amended: the modal state initialises `feedrate` to 1000 mm/min
(never "unset"), and `segment_linear` never fails on a missing or
non-positive feedrate: it silently emits the whole move as one
segment. -/
theorem C6_amended_no_feedrate_failure (s e : Vec3) (f mst : ℝ)
    (hf : f ≤ 0) (hne : s ≠ e) :
    CNCModalState.init.feedrate = 1000
      ∧ segment_linear s e f mst = .ok [(s, e)] := by
  refine ⟨rfl, ?_⟩
  unfold segment_linear
  rw [if_neg hne]
  have hfeed : ¬(f > 0) := not_lt.mpr hf
  simp only [hfeed, if_false]
  rw [if_pos (Or.inl (by norm_num))]
  rfl

/-- C6 amended, witness at a concrete input. -/
theorem C6_amended_no_feedrate_failure_witness :
    CNCModalState.init.feedrate = 1000
      ∧ segment_linear (0, 0, 0) (1, 0, 0) 0 1 = .ok [((0, 0, 0), (1, 0, 0))] :=
  C6_amended_no_feedrate_failure (0, 0, 0) (1, 0, 0) 0 1 le_rfl
    (by simp [Prod.ext_iff])

/-- `hypot2` is non-negative. -/
theorem hypot2_nonneg (x y : ℝ) : 0 ≤ hypot2 x y := Real.sqrt_nonneg _

/-- `hypot2` vanishes exactly on the origin. -/
theorem hypot2_eq_zero_iff (x y : ℝ) : hypot2 x y = 0 ↔ x = 0 ∧ y = 0 := by
  unfold hypot2
  rw [show x ^ 2 + y ^ 2 = x * x + y * y by ring]
  rw [Real.sqrt_eq_zero (by nlinarith [sq_nonneg x, sq_nonneg y])]
  constructor
  · intro h
    constructor
    · nlinarith [sq_nonneg x, sq_nonneg y, mul_self_nonneg x, mul_self_nonneg y]
    · nlinarith [mul_self_nonneg x, mul_self_nonneg y]
  · rintro ⟨hx, hy⟩
    rw [hx, hy]
    ring

/-- Square of `hypot2`. -/
theorem hypot2_sq (x y : ℝ) : hypot2 x y ^ 2 = x ^ 2 + y ^ 2 :=
  Real.sq_sqrt (by positivity)

/-- Cross product at the first candidate center: `h * chord` (the
first candidate always subtends the counter-clockwise side). -/
theorem arcCross_arcCenter1 (s t : ℝ × ℝ) (r : ℝ)
    (hc : hypot2 (t.1 - s.1) (t.2 - s.2) ≠ 0) :
    arcCross s t (arcCenter1 s t r)
      = Real.sqrt (|r| ^ 2 - (hypot2 (t.1 - s.1) (t.2 - s.2) / 2) ^ 2)
          * hypot2 (t.1 - s.1) (t.2 - s.2) := by
  obtain ⟨x0, y0⟩ := s
  obtain ⟨x1, y1⟩ := t
  dsimp only at hc ⊢
  set c := hypot2 (x1 - x0) (y1 - y0) with hcdef
  set h := Real.sqrt (|r| ^ 2 - (c / 2) ^ 2) with hhdef
  have hc2 : c ^ 2 = (x1 - x0) ^ 2 + (y1 - y0) ^ 2 := hypot2_sq _ _
  have key : arcCross (x0, y0) (x1, y1) (arcCenter1 (x0, y0) (x1, y1) r)
      = h * ((x1 - x0) ^ 2 + (y1 - y0) ^ 2) / c := by
    unfold arcCross arcCenter1
    dsimp only
    rw [← hcdef, ← hhdef]
    field_simp
    ring
  rw [key, ← hc2, sq]
  field_simp
  ring

/-- Cross product at the second candidate center: `-(h * chord)` (the
second candidate always subtends the clockwise side). -/
theorem arcCross_arcCenter2 (s t : ℝ × ℝ) (r : ℝ)
    (hc : hypot2 (t.1 - s.1) (t.2 - s.2) ≠ 0) :
    arcCross s t (arcCenter2 s t r)
      = -(Real.sqrt (|r| ^ 2 - (hypot2 (t.1 - s.1) (t.2 - s.2) / 2) ^ 2)
          * hypot2 (t.1 - s.1) (t.2 - s.2)) := by
  obtain ⟨x0, y0⟩ := s
  obtain ⟨x1, y1⟩ := t
  dsimp only at hc ⊢
  set c := hypot2 (x1 - x0) (y1 - y0) with hcdef
  set h := Real.sqrt (|r| ^ 2 - (c / 2) ^ 2) with hhdef
  have hc2 : c ^ 2 = (x1 - x0) ^ 2 + (y1 - y0) ^ 2 := hypot2_sq _ _
  have key : arcCross (x0, y0) (x1, y1) (arcCenter2 (x0, y0) (x1, y1) r)
      = -(h * ((x1 - x0) ^ 2 + (y1 - y0) ^ 2) / c) := by
    unfold arcCross arcCenter2
    dsimp only
    rw [← hcdef, ← hhdef]
    field_simp
    ring
  rw [key, ← hc2, sq]
  field_simp
  ring

/-- C7: `compute_arc_center_from_r` fails exactly when the start and
end coincide or the chord exceeds `2|R|`; on success it returns one of
the two candidate centers, and (whenever both candidates are distinct,
i.e. `chord < 2|R|`) the one returned matches the requested direction
through the sign of the 2-d cross product of `start - center` and
`end - center` — negative cross for clockwise — with the choice
inverted when `R` is negative. -/
theorem C7_compute_arc_center_error_iff_and_direction
    (start stop : ℝ × ℝ) (r : ℝ) (cw : Bool) :
    ((∃ e, compute_arc_center_from_r start stop r cw = .error e)
        ↔ (start = stop
            ∨ hypot2 (stop.1 - start.1) (stop.2 - start.2) > 2 * |r|))
    ∧ (∀ c, compute_arc_center_from_r start stop r cw = .ok c →
        (c = arcCenter1 start stop r ∨ c = arcCenter2 start stop r)
        ∧ (hypot2 (stop.1 - start.1) (stop.2 - start.2) < 2 * |r| →
            ((0 < r → ((cw = true → arcCross start stop c < 0)
                ∧ (cw = false → 0 < arcCross start stop c)))
              ∧ (r < 0 → ((cw = true → 0 < arcCross start stop c)
                ∧ (cw = false → arcCross start stop c < 0)))))) := by
  have hzero_iff : hypot2 (stop.1 - start.1) (stop.2 - start.2) = 0
      ↔ start = stop := by
    rw [hypot2_eq_zero_iff]
    constructor
    · rintro ⟨hx, hy⟩
      have h1 : start.1 = stop.1 := by linarith [sub_eq_zero.mp hx]
      have h2 : start.2 = stop.2 := by linarith [sub_eq_zero.mp hy]
      exact Prod.ext h1 h2
    · rintro rfl
      exact ⟨sub_self _, sub_self _⟩
  by_cases h0 : hypot2 (stop.1 - start.1) (stop.2 - start.2) = 0
  · have heval : compute_arc_center_from_r start stop r cw
        = .error (.valueError "Arc start and end points are identical") := by
      unfold compute_arc_center_from_r
      dsimp only
      rw [if_pos h0]
      rfl
    refine ⟨⟨fun _ => Or.inl (hzero_iff.mp h0), fun _ => ⟨_, heval⟩⟩, ?_⟩
    intro c hc
    rw [heval] at hc
    cases hc
  · by_cases h1 : hypot2 (stop.1 - start.1) (stop.2 - start.2) > 2 * |r|
    · have heval : compute_arc_center_from_r start stop r cw
          = .error (.valueError "Arc radius too small for given endpoints") := by
        unfold compute_arc_center_from_r
        dsimp only
        rw [if_neg h0, if_pos h1]
        rfl
      refine ⟨⟨fun _ => Or.inr h1, fun _ => ⟨_, heval⟩⟩, ?_⟩
      intro c hc
      rw [heval] at hc
      cases hc
    · -- success path
      have hchpos : 0 < hypot2 (stop.1 - start.1) (stop.2 - start.2) :=
        lt_of_le_of_ne (hypot2_nonneg _ _) (Ne.symm h0)
      have hcross1 := arcCross_arcCenter1 start stop r h0
      have hcross2 := arcCross_arcCenter2 start stop r h0
      have hcross1nn : 0 ≤ arcCross start stop (arcCenter1 start stop r) := by
        rw [hcross1]
        exact mul_nonneg (Real.sqrt_nonneg _) (hypot2_nonneg _ _)
      have hsel : compute_arc_center_from_r start stop r cw
          = .ok (if r < 0
              then (if (if cw then arcCenter2 start stop r else arcCenter1 start stop r)
                    = arcCenter1 start stop r
                  then arcCenter2 start stop r else arcCenter1 start stop r)
              else (if cw then arcCenter2 start stop r else arcCenter1 start stop r)) := by
        unfold compute_arc_center_from_r
        dsimp only
        rw [if_neg h0, if_neg h1]
        have hnotlt : ¬(arcCross start stop (arcCenter1 start stop r) < 0) :=
          not_lt.mpr hcross1nn
        cases cw with
        | false => simp only [Bool.false_eq_true, if_false, if_pos hnotlt]; rfl
        | true => simp only [if_true, if_neg hnotlt]; rfl
      refine ⟨⟨?_, ?_⟩, ?_⟩
      · rintro ⟨e, he⟩
        rw [hsel] at he
        cases he
      · rintro (heq | hgt)
        · exact absurd (hzero_iff.mpr heq) h0
        · exact absurd hgt h1
      · intro c hc
        rw [hsel] at hc
        injection hc with hc
        constructor
        · rw [← hc]
          split_ifs <;> simp
        · intro hstrict
          have hhpos : 0 < Real.sqrt (|r| ^ 2
              - (hypot2 (stop.1 - start.1) (stop.2 - start.2) / 2) ^ 2) := by
            apply Real.sqrt_pos.mpr
            nlinarith [hchpos, hstrict, abs_nonneg r]
          have hc1pos : 0 < arcCross start stop (arcCenter1 start stop r) := by
            rw [hcross1]
            exact mul_pos hhpos hchpos
          have hc2neg : arcCross start stop (arcCenter2 start stop r) < 0 := by
            rw [hcross2]
            exact neg_lt_zero.mpr (mul_pos hhpos hchpos)
          have hne12 : arcCenter2 start stop r ≠ arcCenter1 start stop r := by
            intro heq
            rw [heq] at hc2neg
            exact absurd hc1pos (not_lt.mpr hc2neg.le)
          constructor
          · intro hrpos
            have hnotneg : ¬(r < 0) := not_lt.mpr hrpos.le
            constructor
            · intro hcw
              rw [← hc, if_neg hnotneg, hcw, if_pos rfl]
              exact hc2neg
            · intro hcw
              rw [← hc, if_neg hnotneg, hcw]
              simp only [Bool.false_eq_true, if_false]
              exact hc1pos
          · intro hrneg
            constructor
            · intro hcw
              rw [← hc, if_pos hrneg, hcw, if_pos rfl, if_neg hne12]
              exact hc1pos
            · intro hcw
              rw [← hc, if_pos hrneg, hcw]
              simp only [Bool.false_eq_true, if_false, if_pos rfl]
              exact hc2neg

/-- C7 witness: start `(0,0)`, end `(2,0)`, `R = 5/4`, clockwise.  The
chord is 2 < 5/2, the call succeeds with the center `(1, -3/4)` below
the chord, and the cross product there is negative (clockwise), as the
claim requires. -/
theorem C7_compute_arc_center_witness :
    compute_arc_center_from_r (0, 0) (2, 0) (5 / 4) true = .ok (1, -(3 / 4))
      ∧ arcCross (0, 0) (2, 0) (1, -(3 / 4)) < 0 := by
  have hch : hypot2 (2 : ℝ) 0 = 2 := by
    unfold hypot2
    rw [show (2 : ℝ) ^ 2 + (0 : ℝ) ^ 2 = 2 ^ 2 by norm_num]
    exact Real.sqrt_sq (by norm_num)
  have hh : Real.sqrt (|(5 : ℝ) / 4| ^ 2 - ((2 : ℝ) / 2) ^ 2) = 3 / 4 := by
    rw [show |(5 : ℝ) / 4| ^ 2 - ((2 : ℝ) / 2) ^ 2 = (3 / 4) ^ 2 by
      rw [abs_of_nonneg (by norm_num : (0 : ℝ) ≤ 5 / 4)]; norm_num]
    exact Real.sqrt_sq (by norm_num)
  have hcross : arcCross (0, 0) (2, 0) (1, -(3 / 4)) < 0 := by
    unfold arcCross
    norm_num
  have hc2 : arcCenter2 (0, 0) (2, 0) (5 / 4) = (1, -(3 / 4)) := by
    unfold arcCenter2
    dsimp only
    rw [show ((2 : ℝ) - 0) = 2 by norm_num, show ((0 : ℝ) - 0) = 0 by norm_num]
    rw [hch, hh]
    norm_num
  have hc1 : arcCenter1 (0, 0) (2, 0) (5 / 4) = (1, 3 / 4) := by
    unfold arcCenter1
    dsimp only
    rw [show ((2 : ℝ) - 0) = 2 by norm_num, show ((0 : ℝ) - 0) = 0 by norm_num]
    rw [hch, hh]
    norm_num
  have hcross1 : arcCross (0, 0) (2, 0) (1, (3 : ℝ) / 4) = 3 / 2 := by
    unfold arcCross
    norm_num
  refine ⟨?_, hcross⟩
  unfold compute_arc_center_from_r
  dsimp only
  rw [show ((2 : ℝ) - 0) = 2 by norm_num, show ((0 : ℝ) - 0) = 0 by norm_num, hch]
  rw [if_neg (by norm_num), if_neg (by rw [abs_of_nonneg]; norm_num; norm_num)]
  rw [hc1, hc2, hcross1]
  rw [if_neg (show ¬((5 : ℝ) / 4 < 0) by norm_num),
    if_pos (show true = true from rfl),
    if_neg (show ¬((3 : ℝ) / 2 < 0) by norm_num)]
  rfl

/-- C9 counterexample: with the controller cancelled, `pump` still
reads from the streamer (the refill loop checks EOF, queue depth and
the line budget, but never the state).  On a one-line file the call
returns `lines_read = 1` — not 0 — advancing the streamer to EOF; only
the execute phase is skipped (`steps = 0`). -/
theorem C9_counterexample_pump_reads_lines_when_cancelled :
    CNCController.pump
        ((initController (some (initPlanner 150 1000 0.05 0.25 2 200 none))).cancel)
        ⟨some ["G1 X1"], 0, false⟩ (fun _ => []) 50 20
      = .ok
        ({ (initController (some (initPlanner 150 1000 0.05 0.25 2 200 none))).cancel
            with eof := true },
          ⟨some [], 1, true⟩, 1, 0) := by
  simp +decide [CNCController.pump, pumpRefillPlanned, initController, initPlanner,
    CNCController.cancel, GCodeStreamer.next_line, nextLineLoop, pyStrip,
    startsChar, CNCPlanner.finish, isSpaceChar]

/-- The planned-mode refill loop never touches the controller state,
the executor, or the completed length. -/
theorem pumpRefillPlanned_preserves
    (interp : Option ParsedRecord → List MotionPrimitive)
    (c : CNCController) (s : GCodeStreamer) (lr ml : ℕ) :
    (pumpRefillPlanned interp c s lr ml).1.state = c.state
      ∧ (pumpRefillPlanned interp c s lr ml).1.executed = c.executed
      ∧ (pumpRefillPlanned interp c s lr ml).1.completed_length
          = c.completed_length := by
  induction c, s, lr, ml using pumpRefillPlanned.induct interp with
  | case1 c s lr ml h hpl =>
    rw [pumpRefillPlanned]
    simp [dif_pos h, hpl]
  | case2 c s lr ml h pl hpl r hr =>
    rw [pumpRefillPlanned]
    simp [dif_pos h, hpl, show s.next_line.1 = none from hr]
  | case3 c s lr ml h pl hpl r line hr parsed prims pc q' c1 ih =>
    rw [pumpRefillPlanned]
    simp only [dif_pos h, hpl, show s.next_line.1 = some line from hr]
    simpa using ih
  | case4 c s lr ml h =>
    rw [pumpRefillPlanned]
    simp [dif_neg h]

/-- The legacy-mode refill loop never touches the controller state,
the executor, or the completed length. -/
theorem pumpRefillLegacy_preserves
    (interp : Option ParsedRecord → List MotionPrimitive)
    (c : CNCController) (s : GCodeStreamer) (lr ml : ℕ) :
    (pumpRefillLegacy interp c s lr ml).1.state = c.state
      ∧ (pumpRefillLegacy interp c s lr ml).1.executed = c.executed
      ∧ (pumpRefillLegacy interp c s lr ml).1.completed_length
          = c.completed_length := by
  induction c, s, lr, ml using pumpRefillLegacy.induct interp with
  | case1 c s lr ml h r hr =>
    rw [pumpRefillLegacy]
    simp [dif_pos h, show s.next_line.1 = none from hr]
  | case2 c s lr ml h r line hr prims c1 ih =>
    rw [pumpRefillLegacy]
    simp only [dif_pos h, show s.next_line.1 = some line from hr]
    simpa using ih
  | case3 c s lr ml h =>
    rw [pumpRefillLegacy]
    simp [dif_neg h]

/-- C9 amended: when the controller state is `Cancelled`, `pump` still
refills (it may read lines from the streamer and push primitives into
the planner, as the counterexample shows), but it executes nothing:
the call succeeds with `steps = 0`, no primitive reaches the executor,
`completed_length` is unchanged, and the state stays `Cancelled`. -/
theorem C9_amended_cancelled_pump_executes_nothing
    (c : CNCController) (s : GCodeStreamer)
    (interp : Option ParsedRecord → List MotionPrimitive) (ml ms : ℕ)
    (hc : c.state = ControllerState.CANCELLED) :
    (c.pump s interp ml ms).isOk = true
      ∧ ∀ c' s' lines steps,
          c.pump s interp ml ms = .ok (c', s', lines, steps) →
            steps = 0 ∧ c'.executed = c.executed
              ∧ c'.completed_length = c.completed_length
              ∧ c'.state = ControllerState.CANCELLED := by
  unfold CNCController.pump
  cases hpl : c.planner with
  | none =>
    have hpre := pumpRefillLegacy_preserves interp c s 0 ml
    simp only [hpl]
    rw [if_neg]
    · constructor
      · rfl
      · intro c' s' lines steps heq
        injection heq with heq
        simp only [Prod.mk.injEq] at heq
        obtain ⟨h1, h2, h3, h4⟩ := heq
        refine ⟨h4.symm, ?_, ?_, ?_⟩
        · rw [← h1]
          exact hpre.2.1
        · rw [← h1]
          exact hpre.2.2
        · rw [← h1]
          exact hpre.1.trans hc
    · rw [hpre.1, hc]
      simp
  | some pl =>
    have hpre := pumpRefillPlanned_preserves interp c s 0 ml
    simp only [hpl]
    rw [if_neg]
    · constructor
      · rfl
      · intro c' s' lines steps heq
        injection heq with heq
        simp only [Prod.mk.injEq] at heq
        obtain ⟨h1, h2, h3, h4⟩ := heq
        refine ⟨h4.symm, ?_, ?_, ?_⟩
        · rw [← h1]
          exact hpre.2.1
        · rw [← h1]
          exact hpre.2.2
        · rw [← h1]
          exact hpre.1.trans hc
    · rw [hpre.1, hc]
      simp

/-- Distinct points have positive Euclidean distance. -/
theorem dist3_pos_of_ne (a b : Vec3) (h : a ≠ b) : 0 < dist3 a b := by
  obtain ⟨a1, a2, a3⟩ := a
  obtain ⟨b1, b2, b3⟩ := b
  unfold dist3
  apply Real.sqrt_pos.mpr
  dsimp only
  by_contra h0
  push_neg at h0
  have e1 : (b1 - a1) ^ 2 = 0 :=
    le_antisymm (by nlinarith [sq_nonneg (b2 - a2), sq_nonneg (b3 - a3)])
      (sq_nonneg _)
  have e2 : (b2 - a2) ^ 2 = 0 :=
    le_antisymm (by nlinarith [sq_nonneg (b1 - a1), sq_nonneg (b3 - a3)])
      (sq_nonneg _)
  have e3 : (b3 - a3) ^ 2 = 0 :=
    le_antisymm (by nlinarith [sq_nonneg (b1 - a1), sq_nonneg (b2 - a2)])
      (sq_nonneg _)
  have g1 : b1 = a1 := by have := sq_eq_zero_iff.mp e1; linarith
  have g2 : b2 = a2 := by have := sq_eq_zero_iff.mp e2; linarith
  have g3 : b3 = a3 := by have := sq_eq_zero_iff.mp e3; linarith
  exact h (by simp [Prod.ext_iff, g1, g2, g3])

/-- The interpolation point at parameter 0 is the start point. -/
theorem lerpPoint_zero (s e : Vec3) : lerpPoint s e 0 = s := by
  unfold lerpPoint
  obtain ⟨s1, s2, s3⟩ := s
  simp

/-- The interpolation point at parameter 1 is the end point. -/
theorem lerpPoint_one (s e : Vec3) : lerpPoint s e 1 = e := by
  unfold lerpPoint
  obtain ⟨s1, s2, s3⟩ := s
  obtain ⟨e1, e2, e3⟩ := e
  simp only [Prod.mk.injEq]
  refine ⟨by ring, by ring, by ring⟩

/-- Distance between consecutive interpolation points at step `1/n`:
exactly `dist3 s e / n`. -/
theorem dist3_lerpPoint_step (s e : Vec3) (n : ℕ) (hn : 0 < n) (k : ℕ) :
    dist3 (lerpPoint s e ((k : ℝ) / (n : ℝ)))
        (lerpPoint s e (((k : ℝ) + 1) / (n : ℝ)))
      = dist3 s e / (n : ℝ) := by
  have hn' : (0 : ℝ) < (n : ℝ) := by exact_mod_cast hn
  have hne : (n : ℝ) ≠ 0 := ne_of_gt hn'
  unfold dist3 lerpPoint
  have harg :
      (s.1 + (e.1 - s.1) * (((k : ℝ) + 1) / n) - (s.1 + (e.1 - s.1) * ((k : ℝ) / n))) ^ 2
        + (s.2.1 + (e.2.1 - s.2.1) * (((k : ℝ) + 1) / n)
            - (s.2.1 + (e.2.1 - s.2.1) * ((k : ℝ) / n))) ^ 2
        + (s.2.2 + (e.2.2 - s.2.2) * (((k : ℝ) + 1) / n)
            - (s.2.2 + (e.2.2 - s.2.2) * ((k : ℝ) / n))) ^ 2
      = ((e.1 - s.1) ^ 2 + (e.2.1 - s.2.1) ^ 2 + (e.2.2 - s.2.2) ^ 2) / (n : ℝ) ^ 2 := by
    field_simp
    ring
  simp only []
  rw [harg, Real.sqrt_div (by positivity), Real.sqrt_sq hn'.le]

/-- Characterisation of the `segment_linear` interpolation loop: when
entered with `prev` equal to the interpolation point at `i/n`, it
produces the consecutive interpolation pairs from `i` to `n`. -/
theorem segLinearLoop_general (s e : Vec3) (n : ℕ) :
    ∀ d i prev, n - i = d → prev = lerpPoint s e ((i : ℝ) / (n : ℝ)) →
      segLinearLoop s e n prev i
        = (List.range d).map (fun k =>
            (lerpPoint s e (((i + k : ℕ) : ℝ) / (n : ℝ)),
              lerpPoint s e ((((i + k : ℕ) : ℝ) + 1) / (n : ℝ)))) := by
  intro d
  induction d with
  | zero =>
    intro i prev hd _
    rw [segLinearLoop]
    rw [if_neg (by omega)]
    simp
  | succ d ih =>
    intro i prev hd hprev
    rw [segLinearLoop]
    rw [if_pos (by omega)]
    rw [List.range_succ_eq_map]
    simp only [List.map_cons, List.map_map]
    congr 1
    · simp only [Prod.mk.injEq, Nat.add_zero]
      exact ⟨hprev, trivial⟩
    · rw [ih (i + 1) _ (by omega) (by congr 1; push_cast; ring)]
      apply List.map_congr_left
      intro k _
      have hik : i + 1 + k = i + Nat.succ k := by omega
      simp only [Function.comp_apply, hik]

/-- C8: for a linear or rapid move with distinct endpoints, positive
governing feedrate `f` (speed `v = f/60` mm/s) and positive
`max_segment_time`, `segment_linear` produces exactly
`N = max(1, ceil(L / v / max_segment_time))` contiguous segments whose
endpoints are interpolated evenly from start to end (the `k`-th
segment runs from the point at `k/N` to the point at `(k+1)/N`, the
parameter-0 point being `start` and the parameter-1 point being
`end`), and each segment's duration at its feedrate is at most
`max_segment_time`. -/
theorem C8_segment_linear_time_bounded (s e : Vec3) (f mst : ℝ) (N : ℕ)
    (hne : s ≠ e) (hf : 0 < f) (hmst : 0 < mst)
    (hN : N = max 1 (⌈dist3 s e / (f / 60.0) / mst⌉.toNat)) :
    segment_linear s e f mst
        = .ok ((List.range N).map (fun (k : ℕ) =>
            (lerpPoint s e ((k : ℝ) / (N : ℝ)),
              lerpPoint s e (((k : ℝ) + 1) / (N : ℝ)))))
      ∧ lerpPoint s e ((0 : ℝ) / (N : ℝ)) = s
      ∧ lerpPoint s e ((N : ℝ) / (N : ℝ)) = e
      ∧ (∀ k : ℕ, k < N →
          dist3 (lerpPoint s e ((k : ℝ) / (N : ℝ)))
              (lerpPoint s e (((k : ℝ) + 1) / (N : ℝ))) / (f / 60.0) ≤ mst) := by
  have hN1 : 0 < N := by rw [hN]; omega
  have hNr : (0 : ℝ) < (N : ℝ) := by exact_mod_cast hN1
  have hL : 0 < dist3 s e := dist3_pos_of_ne s e hne
  have hv : (0 : ℝ) < f / 60.0 := by positivity
  refine ⟨?_, ?_, ?_, ?_⟩
  · have hloop := segLinearLoop_general s e N N 0 s (by omega)
      (by rw [show ((0 : ℕ) : ℝ) / (N : ℝ) = 0 by simp, lerpPoint_zero])
    unfold segment_linear
    rw [if_neg hne, if_pos hf]
    rw [if_neg (by push_neg; exact ⟨hv, hL⟩)]
    rw [if_neg (ne_of_gt hmst)]
    show Except.ok (segLinearLoop s e (max 1 ⌈dist3 s e / (f / 60.0) / mst⌉.toNat) s 0) = _
    rw [← hN, hloop]
    simp
  · rw [show (0 : ℝ) / (N : ℝ) = 0 by simp, lerpPoint_zero]
  · rw [div_self (ne_of_gt hNr), lerpPoint_one]
  · intro k _
    rw [dist3_lerpPoint_step s e N hN1 k]
    rw [div_div, div_le_iff₀ (by positivity)]
    have h2 : (0 : ℤ) ≤ ⌈dist3 s e / (f / 60.0) / mst⌉ := by
      apply Int.ceil_nonneg
      positivity
    have h4 : (⌈dist3 s e / (f / 60.0) / mst⌉ : ℤ) ≤ (N : ℤ) := by omega
    have hceil : dist3 s e / (f / 60.0) / mst ≤ (N : ℝ) :=
      le_trans (Int.le_ceil _) (by exact_mod_cast h4)
    calc dist3 s e = dist3 s e / (f / 60.0) / mst * (mst * (f / 60.0)) := by
          field_simp
          ring
      _ ≤ (N : ℝ) * (mst * (f / 60.0)) := by
          apply mul_le_mul_of_nonneg_right hceil
          positivity
      _ = mst * ((N : ℝ) * (f / 60.0)) := by ring

/-- C8, witness at a concrete move: 1 mm at 60 mm/min (1 mm/s) with a
quarter-second bound splits into 4 segments. -/
theorem C8_segment_linear_time_bounded_witness :
    segment_linear (0, 0, 0) (1, 0, 0) 60 (1 / 4)
        = .ok ((List.range 4).map (fun (k : ℕ) =>
            (lerpPoint (0, 0, 0) (1, 0, 0) ((k : ℝ) / (4 : ℝ)),
              lerpPoint (0, 0, 0) (1, 0, 0) (((k : ℝ) + 1) / (4 : ℝ)))))
      ∧ lerpPoint (0, 0, 0) (1, 0, 0) ((0 : ℝ) / (4 : ℝ)) = (0, 0, 0)
      ∧ lerpPoint (0, 0, 0) (1, 0, 0) (((4 : ℕ) : ℝ) / (4 : ℝ)) = (1, 0, 0)
      ∧ dist3 (lerpPoint (0, 0, 0) (1, 0, 0) (((0 : ℕ) : ℝ) / (4 : ℝ)))
            (lerpPoint (0, 0, 0) (1, 0, 0) ((((0 : ℕ) : ℝ) + 1) / (4 : ℝ)))
          / (60 / 60.0) ≤ 1 / 4 := by
  have hd : dist3 (0, 0, 0) (1, 0, 0) = 1 := by
    unfold dist3
    norm_num
  have h4 : (4 : ℕ) = max 1 (⌈dist3 ((0 : ℝ), (0 : ℝ), (0 : ℝ)) (1, 0, 0)
      / ((60 : ℝ) / 60.0) / (1 / 4)⌉.toNat) := by
    rw [hd]
    norm_num
    rfl
  have hmain := C8_segment_linear_time_bounded (0, 0, 0) (1, 0, 0) 60 (1 / 4) 4
    (by simp [Prod.ext_iff]) (by norm_num) (by norm_num) h4
  exact ⟨hmain.1, hmain.2.1, hmain.2.2.1, hmain.2.2.2 0 (by norm_num)⟩

/-- C9 amended, witness: a concrete cancelled controller pump call
(the cancelled state holds on the input and the pump succeeds). -/
theorem C9_amended_cancelled_pump_executes_nothing_witness :
    ((initController (some (initPlanner 150 1000 0.05 0.25 2 200 none))).cancel).state
        = ControllerState.CANCELLED
    ∧ (CNCController.pump
        ((initController (some (initPlanner 150 1000 0.05 0.25 2 200 none))).cancel)
        ⟨some ["G1 X1"], 0, false⟩ (fun _ => []) 50 20).isOk = true :=
  ⟨rfl, (C9_amended_cancelled_pump_executes_nothing _ _ _ 50 20 rfl).1⟩

/-!
### Planner lemmas (claims C3 and C4)

Throughout, `moves` is a planner window, `jd` the junction deviation,
`s` the carry-in v² and the plan is computed with `stop_at_end = true`
(as every plan in `_flush_if_ready` and `finish` is).
-/

/-- The backward pass leaves boundary 0 at its cap. -/
theorem v2back_zero (moves : List MoveInfo) (jd s : ℝ) (st : Bool) :
    v2back moves jd s st 0 = cap2 moves jd s st 0 := by
  rw [v2back]
  simp

/-- Beyond the window, the backward pass is the cap. -/
theorem v2back_of_len_le (moves : List MoveInfo) (jd s : ℝ) (st : Bool)
    (i : ℕ) (h : moves.length ≤ i) :
    v2back moves jd s st i = cap2 moves jd s st i := by
  rw [v2back]
  simp [h]

/-- The backward pass never exceeds the cap. -/
theorem v2back_le_cap2 (moves : List MoveInfo) (jd s : ℝ) (st : Bool) (i : ℕ) :
    v2back moves jd s st i ≤ cap2 moves jd s st i := by
  rw [v2back]
  split
  · exact le_refl _
  · exact min_le_left _ _

/-- Deceleration step of the backward pass on an interior boundary. -/
theorem v2back_step (moves : List MoveInfo) (jd s : ℝ) (st : Bool) (i : ℕ)
    (h1 : 1 ≤ i) (h2 : i < moves.length) :
    v2back moves jd s st i
      ≤ v2back moves jd s st (i + 1)
        + 2.0 * (mvD moves i).accel * (mvD moves i).L := by
  rw [v2back]
  rw [if_neg (by omega)]
  exact min_le_right _ _

/-- The forward pass starts at the backward value of boundary 0. -/
theorem v2fwd_zero (moves : List MoveInfo) (jd s : ℝ) (st : Bool) :
    v2fwd moves jd s st 0 = v2back moves jd s st 0 := rfl

/-- The forward pass never exceeds the backward pass. -/
theorem v2fwd_le_v2back (moves : List MoveInfo) (jd s : ℝ) (st : Bool) (i : ℕ) :
    v2fwd moves jd s st i ≤ v2back moves jd s st i := by
  cases i with
  | zero => exact le_refl _
  | succ j => exact min_le_left _ _

/-- Acceleration step of the forward pass. -/
theorem v2fwd_step (moves : List MoveInfo) (jd s : ℝ) (st : Bool) (i : ℕ) :
    v2fwd moves jd s st (i + 1)
      ≤ v2fwd moves jd s st i + 2.0 * (mvD moves i).accel * (mvD moves i).L :=
  min_le_right _ _

/-- Every in-window boundary cap is at most the vmax² of the move
after it. -/
theorem cap2_le_vmax2 (moves : List MoveInfo) (jd s : ℝ) (st : Bool) (i : ℕ)
    (h : i < moves.length) :
    cap2 moves jd s st i ≤ (mvD moves i).vmax * (mvD moves i).vmax := by
  unfold cap2
  by_cases h0 : i = 0
  · rw [if_pos h0, h0]
    exact min_le_right _ _
  · rw [if_neg h0, if_pos h]
    exact le_trans (min_le_left _ _) (min_le_right _ _)

/-- With a forced stop, the final boundary cap is non-positive. -/
theorem cap2_last_nonpos (moves : List MoveInfo) (jd s : ℝ)
    (h : moves ≠ []) :
    cap2 moves jd s true moves.length ≤ 0 := by
  have hlen : 0 < moves.length := List.length_pos.mpr h
  have h1 : ¬moves.length = 0 := by omega
  have h2 : ¬moves.length < moves.length := by omega
  unfold cap2
  simp only [if_neg h1, if_neg h2]
  split
  · exact le_trans (min_le_left _ _) (by norm_num)
  · next hfalse => exact absurd trivial hfalse

/-- In-range defaulted reads are members of the window. -/
theorem mvD_mem (moves : List MoveInfo) (i : ℕ) (h : i < moves.length) :
    mvD moves i ∈ moves := by
  unfold mvD
  rw [List.getD_eq_getElem moves junkMove h]
  exact List.getElem_mem h

/-- A finite junction cap is non-negative when the deviation, the
junction accel and the two `delta_v2` are. -/
theorem junction_v2_nonneg (prev cur : MoveInfo) (jd a : ℝ) (hjd : 0 ≤ jd)
    (ha : 0 ≤ a) (hp : 0 ≤ prev.delta_v2) (hc : 0 ≤ cur.delta_v2) :
    ∀ v, junction_v2 prev cur jd a = some v → 0 ≤ v := by
  intro v hv
  unfold junction_v2 at hv
  dsimp only at hv
  split at hv
  · cases hv
  · next hcond =>
    push_neg at hcond
    injection hv with hv
    have hsin : (0 : ℝ) ≤ Real.sqrt (max (0.5 * (1.0 - -pyClamp
        (prev.u.1 * cur.u.1 + prev.u.2.1 * cur.u.2.1 + prev.u.2.2 * cur.u.2.2)
        (-1.0) 1.0)) 0.0) := Real.sqrt_nonneg _
    have hone : (0 : ℝ) < 1.0 - Real.sqrt (max (0.5 * (1.0 - -pyClamp
        (prev.u.1 * cur.u.1 + prev.u.2.1 * cur.u.2.1 + prev.u.2.2 * cur.u.2.2)
        (-1.0) 1.0)) 0.0) := by
      have := hcond.1
      have hEPS : (0 : ℝ) < EPS := by unfold EPS; norm_num
      linarith
    have hcos : (0 : ℝ) < Real.sqrt (max (0.5 * (1.0 + -pyClamp
        (prev.u.1 * cur.u.1 + prev.u.2.1 * cur.u.2.1 + prev.u.2.2 * cur.u.2.2)
        (-1.0) 1.0)) 0.0) := by
      have := hcond.2
      have hEPS : (0 : ℝ) < EPS := by unfold EPS; norm_num
      linarith
    rw [← hv]
    have hR : (0 : ℝ) ≤ Real.sqrt (max (0.5 * (1.0 - -pyClamp
        (prev.u.1 * cur.u.1 + prev.u.2.1 * cur.u.2.1 + prev.u.2.2 * cur.u.2.2)
        (-1.0) 1.0)) 0.0) / (1.0 - Real.sqrt (max (0.5 * (1.0 - -pyClamp
        (prev.u.1 * cur.u.1 + prev.u.2.1 * cur.u.2.1 + prev.u.2.2 * cur.u.2.2)
        (-1.0) 1.0)) 0.0)) := div_nonneg hsin hone.le
    have hqt : (0 : ℝ) ≤ 0.25 * Real.sqrt (max (0.5 * (1.0 - -pyClamp
        (prev.u.1 * cur.u.1 + prev.u.2.1 * cur.u.2.1 + prev.u.2.2 * cur.u.2.2)
        (-1.0) 1.0)) 0.0) / Real.sqrt (max (0.5 * (1.0 + -pyClamp
        (prev.u.1 * cur.u.1 + prev.u.2.1 * cur.u.2.1 + prev.u.2.2 * cur.u.2.2)
        (-1.0) 1.0)) 0.0) := by
      apply div_nonneg _ hcos.le
      linarith [hsin]
    refine le_min (le_min ?_ ?_) ?_
    · exact mul_nonneg ha (mul_nonneg hjd hR)
    · exact mul_nonneg hc hqt
    · exact mul_nonneg hp hqt

/-- The folded junction contribution at an interior boundary is
non-negative under the same sign conditions. -/
theorem boundary_jcap_nonneg (moves : List MoveInfo) (jd : ℝ) (i : ℕ)
    (hjd : 0 ≤ jd)
    (ha1 : 0 ≤ (mvD moves (i - 1)).accel) (ha2 : 0 ≤ (mvD moves i).accel)
    (hd1 : 0 ≤ (mvD moves (i - 1)).delta_v2) (hd2 : 0 ≤ (mvD moves i).delta_v2) :
    0 ≤ boundary_jcap moves jd i := by
  unfold boundary_jcap
  dsimp only
  cases hj : junction_v2 (mvD moves (i - 1)) (mvD moves i) jd
      (min (mvD moves (i - 1)).accel (mvD moves i).accel) with
  | none => exact le_min (mul_self_nonneg _) (mul_self_nonneg _)
  | some v =>
    have hv := junction_v2_nonneg (mvD moves (i - 1)) (mvD moves i) jd
      (min (mvD moves (i - 1)).accel (mvD moves i).accel) hjd
      (le_min ha1 ha2) hd1 hd2 v hj
    exact le_min (le_min hv (mul_self_nonneg _)) (mul_self_nonneg _)

/-- Interior boundary caps are non-negative for a window of good moves
and non-negative junction deviation. -/
theorem cap2_interior_nonneg (moves : List MoveInfo) (jd s : ℝ) (st : Bool)
    (i : ℕ) (h1 : 1 ≤ i) (h2 : i < moves.length) (hjd : 0 ≤ jd)
    (hall : ∀ mi ∈ moves, 0 ≤ mi.accel ∧ 0 ≤ mi.delta_v2) :
    0 ≤ cap2 moves jd s st i := by
  have hm1 : mvD moves (i - 1) ∈ moves := mvD_mem _ _ (by omega)
  have hm2 : mvD moves i ∈ moves := mvD_mem _ _ h2
  unfold cap2
  rw [if_neg (by omega), if_pos h2]
  refine le_min (le_min (mul_self_nonneg _) (mul_self_nonneg _)) ?_
  exact boundary_jcap_nonneg moves jd i hjd (hall _ hm1).1 (hall _ hm2).1
    (hall _ hm1).2 (hall _ hm2).2

/-- Positive boundary caps do not depend on the carry-in value. -/
theorem cap2_pos_index_start_irrel (moves : List MoveInfo) (jd s1 s2 : ℝ)
    (st : Bool) (i : ℕ) (h : i ≠ 0) :
    cap2 moves jd s1 st i = cap2 moves jd s2 st i := by
  unfold cap2
  rw [if_neg h, if_neg h]

/-- The backward pass at positive boundaries does not depend on the
carry-in value. -/
theorem v2back_start_irrel (moves : List MoveInfo) (jd s1 s2 : ℝ) (st : Bool) :
    ∀ i, 1 ≤ i → v2back moves jd s1 st i = v2back moves jd s2 st i := by
  suffices H : ∀ d i, 1 ≤ i → moves.length - i = d →
      v2back moves jd s1 st i = v2back moves jd s2 st i by
    exact fun i h1 => H _ i h1 rfl
  intro d
  induction d with
  | zero =>
    intro i h1 hd
    rw [v2back_of_len_le _ _ _ _ _ (by omega), v2back_of_len_le _ _ _ _ _ (by omega)]
    exact cap2_pos_index_start_irrel _ _ _ _ _ _ (by omega)
  | succ d ih =>
    intro i h1 hd
    unfold v2back
    rw [if_neg (by omega), if_neg (by omega)]
    rw [cap2_pos_index_start_irrel _ _ s1 s2 _ _ (by omega)]
    rw [ih (i + 1) (by omega) (by omega)]

/-- Defaulted reads of a dropped window shift the index. -/
theorem mvD_drop (moves : List MoveInfo) (k j : ℕ) :
    mvD (moves.drop k) j = mvD moves (k + j) := by
  unfold mvD
  rw [List.getD_eq_getElem?_getD, List.getD_eq_getElem?_getD, List.getElem?_drop]

/-- Defaulted reads below the old length ignore an appended move. -/
theorem mvD_append (moves : List MoveInfo) (m : MoveInfo) (i : ℕ)
    (h : i < moves.length) :
    mvD (moves ++ [m]) i = mvD moves i := by
  unfold mvD
  rw [List.getD_eq_getElem?_getD, List.getD_eq_getElem?_getD,
    List.getElem?_append, if_pos h]

/-- Interior junction contributions shift with a dropped head. -/
theorem boundary_jcap_drop (moves : List MoveInfo) (jd : ℝ) (k j : ℕ)
    (hj : 1 ≤ j) :
    boundary_jcap (moves.drop k) jd j = boundary_jcap moves jd (j + k) := by
  unfold boundary_jcap
  rw [mvD_drop, mvD_drop]
  rw [show k + (j - 1) = j + k - 1 by omega, show k + j = j + k by omega]

/-- Interior junction contributions ignore an appended tail move. -/
theorem boundary_jcap_append (moves : List MoveInfo) (m : MoveInfo) (jd : ℝ)
    (j : ℕ) (hj : 1 ≤ j) (hlt : j < moves.length) :
    boundary_jcap (moves ++ [m]) jd j = boundary_jcap moves jd j := by
  unfold boundary_jcap
  rw [mvD_append _ _ _ (by omega), mvD_append _ _ _ hlt]

/-- Defaulted read of the appended move itself. -/
theorem mvD_append_last (moves : List MoveInfo) (m : MoveInfo) :
    mvD (moves ++ [m]) moves.length = m := by
  unfold mvD
  rw [List.getD_eq_getElem?_getD, List.getElem?_append, if_neg (by omega)]
  simp

/-- Boundary caps (at positive indices, under a forced stop) shift
with a dropped head. -/
theorem cap2_drop (moves : List MoveInfo) (jd s1 s2 : ℝ) (k j : ℕ)
    (hk : k < moves.length) (hj : 1 ≤ j) :
    cap2 (moves.drop k) jd s1 true j = cap2 moves jd s2 true (j + k) := by
  unfold cap2
  rw [List.length_drop]
  by_cases hin : j < moves.length - k
  · have h1 : ¬(j = 0) := by omega
    have h3 : ¬(j + k = 0) := by omega
    have h4 : j + k < moves.length := by omega
    rw [if_neg h1, if_pos hin, if_neg h3, if_pos h4]
    rw [mvD_drop, mvD_drop, boundary_jcap_drop _ _ _ _ hj]
    rw [show k + (j - 1) = j + k - 1 by omega, show k + j = j + k by omega]
  · have h1 : ¬(j = 0) := by omega
    have h3 : ¬(j + k = 0) := by omega
    have h4 : ¬(j + k < moves.length) := by omega
    rw [if_neg h1, if_neg hin, if_neg h3, if_neg h4]
    rw [mvD_drop]
    rw [show k + (moves.length - k - 1) = moves.length - 1 by omega]

/-- The backward pass (at positive indices, under a forced stop)
shifts with a dropped head. -/
theorem v2back_drop (moves : List MoveInfo) (jd s1 s2 : ℝ) (k : ℕ)
    (hk : k < moves.length) :
    ∀ j, 1 ≤ j →
      v2back (moves.drop k) jd s1 true j = v2back moves jd s2 true (j + k) := by
  suffices H : ∀ d j, 1 ≤ j → moves.length - k - j = d →
      v2back (moves.drop k) jd s1 true j = v2back moves jd s2 true (j + k) by
    exact fun j hj => H _ j hj rfl
  intro d
  induction d with
  | zero =>
    intro j hj hd
    rw [v2back_of_len_le _ _ _ _ _ (by rw [List.length_drop]; omega),
      v2back_of_len_le _ _ _ _ _ (by omega)]
    exact cap2_drop moves jd s1 s2 k j hk hj
  | succ d ih =>
    intro j hj hd
    unfold v2back
    rw [List.length_drop]
    rw [if_neg (by omega), if_neg (by omega)]
    rw [cap2_drop moves jd s1 s2 k j hk hj]
    rw [ih (j + 1) (by omega) (by omega)]
    rw [mvD_drop, show k + j = j + k by omega]
    rw [show j + 1 + k = j + k + 1 by omega]

/-- Interior boundary caps ignore an appended tail move. -/
theorem cap2_append_eq (moves : List MoveInfo) (m : MoveInfo) (jd s : ℝ)
    (st : Bool) (i : ℕ) (h1 : 1 ≤ i) (h2 : i < moves.length) :
    cap2 (moves ++ [m]) jd s st i = cap2 moves jd s st i := by
  unfold cap2
  rw [List.length_append, List.length_singleton]
  rw [if_neg (by omega), if_pos (by omega), if_neg (by omega), if_pos h2]
  rw [mvD_append _ _ _ (by omega), mvD_append _ _ _ h2,
    boundary_jcap_append _ _ _ _ h1 h2]

/-- Appending a move to the window can only raise the backward-pass
values at the boundaries of the old window (positive indices), for
sign-sane moves and deviation: the old forced stop is replaced by a
junction cap plus non-negative reachability slack. -/
theorem v2back_append_mono (moves : List MoveInfo) (m : MoveInfo) (jd s1 s2 : ℝ)
    (hjd : 0 ≤ jd)
    (hall : ∀ mi ∈ moves ++ [m], 0 ≤ mi.accel ∧ 0 ≤ mi.delta_v2 ∧ 0 ≤ mi.L) :
    ∀ i, 1 ≤ i → i ≤ moves.length →
      v2back moves jd s1 true i ≤ v2back (moves ++ [m]) jd s2 true i := by
  have hall2 : ∀ mi ∈ moves ++ [m], 0 ≤ mi.accel ∧ 0 ≤ mi.delta_v2 :=
    fun mi h => ⟨(hall mi h).1, (hall mi h).2.1⟩
  have hm : m ∈ moves ++ [m] := by simp
  suffices H : ∀ d i, 1 ≤ i → i ≤ moves.length → moves.length - i = d →
      v2back moves jd s1 true i ≤ v2back (moves ++ [m]) jd s2 true i by
    exact fun i h1 h2 => H _ i h1 h2 rfl
  intro d
  induction d with
  | zero =>
    intro i h1 h2 hd
    have hi : i = moves.length := by omega
    subst hi
    have hne : moves ≠ [] := by
      intro hcon
      rw [hcon] at h1
      simp at h1
    have hlhs : v2back moves jd s1 true moves.length ≤ 0 := by
      rw [v2back_of_len_le _ _ _ _ _ (le_refl _)]
      exact cap2_last_nonpos moves jd s1 hne
    have hext1 : v2back (moves ++ [m]) jd s2 true (moves.length + 1)
        = cap2 (moves ++ [m]) jd s2 true (moves.length + 1) :=
      v2back_of_len_le _ _ _ _ _ (by simp)
    have hext1v : cap2 (moves ++ [m]) jd s2 true (moves.length + 1) = 0 := by
      unfold cap2
      rw [List.length_append, List.length_singleton]
      rw [if_neg (by omega), if_neg (by omega)]
      rw [show moves.length + 1 - 1 = moves.length by omega, mvD_append_last]
      split
      · simp only [show (0.0 : ℝ) = 0 by norm_num]
        exact min_eq_left (mul_self_nonneg _)
      · next hfalse => simp at hfalse
    refine le_trans hlhs ?_
    unfold v2back
    rw [List.length_append, List.length_singleton]
    rw [if_neg (by omega)]
    refine le_min ?_ ?_
    · exact cap2_interior_nonneg _ _ _ _ _ h1 (by simp) hjd hall2
    · rw [hext1, hext1v, mvD_append_last]
      have hma := hall m hm
      nlinarith [hma.1, hma.2.2]
  | succ d ih =>
    intro i h1 h2 hd
    unfold v2back
    rw [List.length_append, List.length_singleton]
    rw [if_neg (by omega), if_neg (by omega)]
    rw [cap2_append_eq _ _ _ _ _ _ h1 (by omega)]
    rw [cap2_pos_index_start_irrel moves jd s2 s1 true i (by omega)]
    refine min_le_min (le_refl _) ?_
    rw [mvD_append _ _ _ (by omega)]
    exact add_le_add_right (ih (i + 1) (by omega) (by omega) (by omega)) _

/-- Zero-clamp: non-negativity. -/
theorem max0_nonneg (x : ℝ) : (0 : ℝ) ≤ max 0.0 x :=
  le_trans (by norm_num) (le_max_left _ _)

/-- Zero-clamp: monotonicity. -/
theorem max0_mono {x y : ℝ} (h : x ≤ y) : max 0.0 x ≤ max 0.0 y :=
  max_le_max (le_refl _) h

/-- Zero-clamp: shifting by a non-negative constant. -/
theorem max0_add_le (x c : ℝ) (hc : 0 ≤ c) : max 0.0 (x + c) ≤ max 0.0 x + c := by
  have h1 : (0 : ℝ) ≤ max 0.0 x := max0_nonneg x
  refine max_le (by linarith) ?_
  have h2 : x ≤ max 0.0 x := le_max_right _ _
  linarith

/-- Zero-clamp of a non-negative value. -/
theorem max0_eq_of_nonneg {x : ℝ} (h : 0 ≤ x) : max 0.0 x = x :=
  max_eq_right (le_trans (by norm_num) h)

/-- Zero-clamp of a non-positive value. -/
theorem max0_eq_zero_of_nonpos {x : ℝ} (h : x ≤ 0) : max 0.0 x = 0.0 :=
  max_eq_left (le_trans h (by norm_num))

/-- Both trapezoid branches give the same entry speed:
`√(max(0, v2fwd[i]))`. -/
theorem plannedAt_v_entry (moves : List MoveInfo) (jd s : ℝ) (st : Bool) (i : ℕ) :
    (plannedAt moves jd s st i).v_entry
      = Real.sqrt (max 0.0 (v2fwd moves jd s st i)) := by
  unfold plannedAt
  dsimp only
  split <;> rfl

/-- Both trapezoid branches give the same exit speed:
`√(max(0, v2fwd[i+1]))`. -/
theorem plannedAt_v_exit (moves : List MoveInfo) (jd s : ℝ) (st : Bool) (i : ℕ) :
    (plannedAt moves jd s st i).v_exit
      = Real.sqrt (max 0.0 (v2fwd moves jd s st (i + 1))) := by
  unfold plannedAt
  dsimp only
  split <;> rfl

/-- Both trapezoid branches wrap the move's own primitive. -/
theorem plannedAt_primitive (moves : List MoveInfo) (jd s : ℝ) (st : Bool) (i : ℕ) :
    (plannedAt moves jd s st i).primitive = (mvD moves i).p := by
  unfold plannedAt
  dsimp only
  split <;> rfl

/-- Both trapezoid branches give the same peak speed. -/
theorem plannedAt_v_peak (moves : List MoveInfo) (jd s : ℝ) (st : Bool) (i : ℕ) :
    (plannedAt moves jd s st i).v_peak
      = Real.sqrt (max 0.0 (min ((mvD moves i).vmax * (mvD moves i).vmax)
          ((mvD moves i).accel * (mvD moves i).L
            + 0.5 * (max 0.0 (v2fwd moves jd s st i)
              + max 0.0 (v2fwd moves jd s st (i + 1)))))) := by
  unfold plannedAt
  dsimp only
  split <;> rfl

/-- A non-empty plan is the per-index map over `range`. -/
theorem plan_window_eq_map (moves : List MoveInfo) (jd s : ℝ) (st : Bool)
    (h : moves ≠ []) :
    plan_window moves jd s st
      = (List.range moves.length).map (plannedAt moves jd s st) := by
  cases moves with
  | nil => exact absurd rfl h
  | cons hd tl => rfl

/-- A plan has one entry per window move. -/
theorem plan_window_length (moves : List MoveInfo) (jd s : ℝ) (st : Bool) :
    (plan_window moves jd s st).length = moves.length := by
  cases moves with
  | nil => rfl
  | cons hd tl => simp [plan_window]

/-- In-range defaulted read of a plan. -/
theorem plan_window_getD (moves : List MoveInfo) (jd s : ℝ) (st : Bool)
    (i : ℕ) (h : i < moves.length) (d : PlannedPrimitive) :
    (plan_window moves jd s st).getD i d = plannedAt moves jd s st i := by
  have hne : moves ≠ [] := by
    intro hc
    rw [hc] at h
    simp at h
  rw [plan_window_eq_map _ _ _ _ hne]
  rw [List.getD_eq_getElem?_getD, List.getElem?_map, List.getElem?_range h]
  rfl

/-- A committed prefix of a plan as a map over `range`. -/
theorem plan_window_take (moves : List MoveInfo) (jd s : ℝ) (st : Bool)
    (fc : ℕ) (hfc : fc ≤ moves.length) (hne : moves ≠ []) :
    (plan_window moves jd s st).take fc
      = (List.range fc).map (plannedAt moves jd s st) := by
  rw [plan_window_eq_map _ _ _ _ hne, ← List.map_take, List.take_range,
    Nat.min_eq_left hfc]

/-- Head of a mapped range. -/
theorem range_map_head {α : Type} (f : ℕ → α) (n : ℕ) (h : 0 < n) :
    ((List.range n).map f).head? = some (f 0) := by
  cases n with
  | zero => omega
  | succ k =>
    rw [List.range_succ_eq_map]
    rfl

/-- Last element of a mapped range. -/
theorem range_map_getLast {α : Type} (f : ℕ → α) (k : ℕ) :
    ((List.range (k + 1)).map f).getLast? = some (f k) := by
  rw [List.range_succ, List.map_append]
  simp

/-- Any per-index prefix of a plan is exit/entry continuous. -/
theorem plan_prefix_chain (moves : List MoveInfo) (jd s : ℝ) (st : Bool)
    (fc : ℕ) :
    List.Chain' (fun a b => a.v_exit = b.v_entry)
      ((List.range fc).map (plannedAt moves jd s st)) := by
  cases fc with
  | zero => simp
  | succ k =>
    rw [List.chain'_map, List.chain'_range_succ]
    intro m _
    rw [plannedAt_v_exit, plannedAt_v_entry]

/-- Every plan is exit/entry continuous within itself. -/
theorem plan_window_chain (moves : List MoveInfo) (jd s : ℝ) (st : Bool) :
    List.Chain' (fun a b => a.v_exit = b.v_entry) (plan_window moves jd s st) := by
  cases hm : moves with
  | nil => simp [plan_window]
  | cons hd tl =>
    rw [← hm, plan_window_eq_map _ _ _ _ (by rw [hm]; simp)]
    exact plan_prefix_chain _ _ _ _ _

/-- The head of a non-empty list is its defaulted read at 0. -/
theorem head_eq_mvD (moves : List MoveInfo) (h : moves ≠ []) :
    moves.head? = some (mvD moves 0) := by
  cases moves with
  | nil => exact absurd rfl h
  | cons a l => rfl

/-- A carry-in v² that is non-negative and below the window head's
speed cap squared survives the boundary-0 caps untouched. -/
theorem v2fwd_zero_clamped (moves : List MoveInfo) (jd c : ℝ) (st : Bool)
    (h0 : 0 ≤ c) (hv : c ≤ (mvD moves 0).vmax * (mvD moves 0).vmax) :
    max 0.0 (v2fwd moves jd c st 0) = c := by
  rw [v2fwd_zero, v2back_zero]
  unfold cap2
  rw [if_pos rfl]
  rw [max0_eq_of_nonneg h0, min_eq_left hv, max0_eq_of_nonneg h0]

/-- The committed-prefix counter never exceeds its bound. -/
theorem flushCountLoop_le (force : Bool) (bt : ℝ) (w : List MoveInfo) :
    ∀ d (rem : ℝ) (fc mf : ℕ), mf - fc = d → fc ≤ mf →
      flushCountLoop force bt w rem fc mf ≤ mf := by
  intro d
  induction d with
  | zero =>
    intro rem fc mf hd hle
    unfold flushCountLoop
    rw [if_neg (by omega)]
    exact hle
  | succ d ih =>
    intro rem fc mf hd hle
    unfold flushCountLoop
    rw [if_pos (by omega)]
    dsimp only
    split
    · exact hle
    · exact ih _ (fc + 1) mf (by omega) (by omega)

/-- An operation that emits nothing and leaves the carry alone. -/
theorem streamOK_nil (c : ℝ) : StreamOK c [] c := by
  refine ⟨List.chain'_nil, ?_, ?_, fun _ => rfl⟩
  · intro hd h
    simp at h
  · intro la h
    simp at h

/-- Batch composition: two continuous batches with matching carries
compose to a continuous batch. -/
theorem streamOK_append (c1 c2 c3 : ℝ) (out1 out2 : List PlannedPrimitive)
    (h1 : StreamOK c1 out1 c2) (h2 : StreamOK c2 out2 c3) :
    StreamOK c1 (out1 ++ out2) c3 := by
  obtain ⟨hc1, hh1, hl1, he1⟩ := h1
  obtain ⟨hc2, hh2, hl2, he2⟩ := h2
  refine ⟨?_, ?_, ?_, ?_⟩
  · rw [List.chain'_append]
    refine ⟨hc1, hc2, ?_⟩
    intro x hx y hy
    rw [hl1 x (Option.mem_def.mp hx), hh2 y (Option.mem_def.mp hy)]
  · intro hd hh
    cases ho : out1 with
    | nil =>
      rw [ho, List.nil_append] at hh
      rw [hh2 hd hh, he1 ho]
    | cons a l =>
      apply hh1
      rw [ho, List.head?_cons]
      rw [ho, List.cons_append, List.head?_cons] at hh
      exact hh
  · intro la hl
    cases ho : out2 with
    | nil =>
      rw [ho, List.append_nil] at hl
      rw [hl1 la hl, he2 ho]
    | cons a l =>
      apply hl2
      rw [ho]
      rw [ho, List.getLast?_append_cons] at hl
      exact hl
  · intro he
    rw [List.append_eq_nil] at he
    rw [he2 he.2, he1 he.1]

/-- `_flush_if_ready` preserves the window well-formedness and emits a
continuous batch: the committed prefix starts at `√carry_in_v2`,
ends at the square root of the updated carry, and an empty commit
leaves the planner untouched. -/
theorem flush_if_ready_spec (pl : CNCPlanner) (force : Bool) (hwf : PlannerWF pl) :
    PlannerWF (pl.flush_if_ready force).1
      ∧ StreamOK pl.carry_in_v2 (pl.flush_if_ready force).2
          (pl.flush_if_ready force).1.carry_in_v2 := by
  unfold CNCPlanner.flush_if_ready
  split
  · exact ⟨hwf, streamOK_nil _⟩
  split
  · exact ⟨hwf, streamOK_nil _⟩
  next hA hB =>
  dsimp only
  split
  · exact ⟨hwf, streamOK_nil _⟩
  next hfc0 =>
  have hk1 : 1 ≤ pl.keep_tail_moves := hwf.1
  have hwlen : pl.keep_tail_moves < pl.window.length := by omega
  have hne : pl.window ≠ [] := by
    intro h
    rw [h] at hwlen
    simp at hwlen
  have hfc_le : flushCountLoop force pl.buffer_time pl.window pl.window_time 0
      (pl.window.length - pl.keep_tail_moves)
        ≤ pl.window.length - pl.keep_tail_moves :=
    flushCountLoop_le force pl.buffer_time pl.window _ pl.window_time 0 _ rfl
      (by omega)
  have hfclt : flushCountLoop force pl.buffer_time pl.window pl.window_time 0
      (pl.window.length - pl.keep_tail_moves) < pl.window.length := by omega
  have hfc1 : 1 ≤ flushCountLoop force pl.buffer_time pl.window pl.window_time 0
      (pl.window.length - pl.keep_tail_moves) := by omega
  set fc := flushCountLoop force pl.buffer_time pl.window pl.window_time 0
    (pl.window.length - pl.keep_tail_moves) with hfc
  have hplen : (plan_window pl.window pl.junction_deviation pl.carry_in_v2
      true).length = pl.window.length := plan_window_length _ _ _ _
  have hcarry : (if fc < (plan_window pl.window pl.junction_deviation
        pl.carry_in_v2 true).length then
        ((plan_window pl.window pl.junction_deviation pl.carry_in_v2 true).getD
          fc (plannedAt [] 0 0 true 0)).v_entry
          * ((plan_window pl.window pl.junction_deviation pl.carry_in_v2
            true).getD fc (plannedAt [] 0 0 true 0)).v_entry
      else 0.0)
      = max 0.0 (v2fwd pl.window pl.junction_deviation pl.carry_in_v2 true fc) := by
    rw [if_pos (by omega), plan_window_getD _ _ _ _ _ hfclt, plannedAt_v_entry]
    exact Real.mul_self_sqrt (max0_nonneg _)
  rw [hcarry]
  have htake : (plan_window pl.window pl.junction_deviation pl.carry_in_v2
      true).take fc
        = (List.range fc).map
            (plannedAt pl.window pl.junction_deviation pl.carry_in_v2 true) :=
    plan_window_take _ _ _ _ _ (by omega) hne
  refine ⟨⟨hwf.1, max0_nonneg _, ?_, ?_⟩, ?_, ?_, ?_, ?_⟩
  · intro h
    rw [List.drop_eq_nil_iff] at h
    omega
  · intro hd hh
    rw [head_eq_mvD _ (by rw [ne_eq, List.drop_eq_nil_iff]; omega)] at hh
    injection hh with hh
    rw [← hh, mvD_drop]
    refine le_trans (max0_mono (le_trans (v2fwd_le_v2back _ _ _ _ _)
      (v2back_le_cap2 _ _ _ _ _))) ?_
    rw [show fc + 0 = fc by omega]
    refine le_trans (max0_mono (cap2_le_vmax2 _ _ _ _ _ hfclt)) ?_
    exact le_of_eq (max0_eq_of_nonneg (mul_self_nonneg _))
  · rw [htake]
    exact plan_prefix_chain _ _ _ _ _
  · intro hd hh
    rw [htake, range_map_head _ _ (by omega)] at hh
    injection hh with hh
    rw [← hh, plannedAt_v_entry,
      v2fwd_zero_clamped _ _ _ _ hwf.2.1 (hwf.2.2.2 _ (head_eq_mvD _ hne))]
  · intro la hl
    obtain ⟨k, hk⟩ : ∃ k, fc = k + 1 := ⟨fc - 1, by omega⟩
    rw [htake, hk, range_map_getLast] at hl
    injection hl with hl
    rw [← hl, plannedAt_v_exit, ← hk]
  · intro he
    rw [htake] at he
    simp at he
    omega

/-- `push` preserves the window well-formedness and emits a continuous
batch with matching carries. -/
theorem push_spec (pl : CNCPlanner) (p : MotionPrimitive) (hwf : PlannerWF pl) :
    PlannerWF (pl.push p).1
      ∧ StreamOK pl.carry_in_v2 (pl.push p).2 (pl.push p).1.carry_in_v2 := by
  unfold CNCPlanner.push
  cases hmk : make_moveinfo pl p with
  | none => exact ⟨hwf, streamOK_nil _⟩
  | some mi =>
    have hwf' : PlannerWF { pl with window := pl.window ++ [mi], window_time := pl.window_time + mi.min_time } := by
      refine ⟨hwf.1, hwf.2.1, ?_, ?_⟩
      · intro h
        exact absurd h (by simp)
      · intro hd hh
        cases hw : pl.window with
        | nil =>
          rw [hw] at hh
          simp only [List.nil_append, List.head?_cons] at hh
          injection hh with hh
          rw [hwf.2.2.1 hw, ← hh]
          exact mul_self_nonneg _
        | cons a l =>
          rw [hw] at hh
          simp only [List.cons_append, List.head?_cons] at hh
          apply hwf.2.2.2
          rw [hw, List.head?_cons]
          exact hh
    exact flush_if_ready_spec _ _ hwf'

/-- `finish` resets the planner to a well-formed state and emits the
whole remaining window as a continuous batch. -/
theorem finish_spec (pl : CNCPlanner) (hwf : PlannerWF pl) :
    PlannerWF (pl.finish).1
      ∧ StreamOK pl.carry_in_v2 (pl.finish).2 (pl.finish).1.carry_in_v2 := by
  unfold CNCPlanner.finish
  cases hw : pl.window with
  | nil => exact ⟨hwf, streamOK_nil _⟩
  | cons a l =>
    have hne : a :: l ≠ [] := by simp
    have hhd : pl.window.head? = some (mvD (a :: l) 0) := by
      rw [hw]
      exact head_eq_mvD _ hne
    dsimp only [CNCPlanner.reset]
    refine ⟨⟨hwf.1, by norm_num, fun _ => by norm_num, ?_⟩, ?_, ?_, ?_, ?_⟩
    · intro hd hh
      simp at hh
    · exact plan_window_chain _ _ _ _
    · intro hd hh
      rw [plan_window_eq_map _ _ _ _ hne,
        range_map_head _ _ (List.length_pos.mpr hne)] at hh
      injection hh with hh
      rw [← hh, plannedAt_v_entry,
        v2fwd_zero_clamped _ _ _ _ hwf.2.1 (hwf.2.2.2 _ hhd)]
    · intro la hl
      have hk : (a :: l).length = l.length + 1 := rfl
      rw [plan_window_eq_map _ _ _ _ hne, hk, range_map_getLast] at hl
      injection hl with hl
      rw [← hl, plannedAt_v_exit]
      have hle : v2fwd (a :: l) pl.junction_deviation pl.carry_in_v2 true
          (l.length + 1) ≤ 0 := by
        refine le_trans (v2fwd_le_v2back _ _ _ _ _) ?_
        rw [v2back_of_len_le _ _ _ _ _ (by simp), ← hk]
        exact cap2_last_nonpos _ _ _ hne
      rw [max0_eq_zero_of_nonpos hle]
    · intro he
      rw [plan_window_eq_map _ _ _ _ hne] at he
      simp at he

/-- Folding a primitive sequence through `push` preserves the window
well-formedness and emits one continuous batch with matching carries. -/
theorem pushAll_spec (ps : List MotionPrimitive) :
    ∀ pl : CNCPlanner, PlannerWF pl →
      PlannerWF (pushAll pl ps).1
        ∧ StreamOK pl.carry_in_v2 (pushAll pl ps).2 (pushAll pl ps).1.carry_in_v2 := by
  induction ps with
  | nil =>
    intro pl hwf
    exact ⟨hwf, streamOK_nil _⟩
  | cons p ps ih =>
    intro pl hwf
    have h1 := push_spec pl p hwf
    have h2 := ih (pl.push p).1 h1.1
    unfold pushAll
    dsimp only
    exact ⟨h2.1, streamOK_append _ _ _ _ _ h1.2 h2.2⟩

/-- C3: for every planner configuration and every sequence of pushed
primitives, the full emitted stream (everything committed by the
`push` calls followed by the `finish` batch) satisfies
`P_i.v_exit = P_{i+1}.v_entry` for every consecutive pair, including
pairs straddling a commit boundary: each commit updates
`carry_in_v2` to the planned entry speed squared of the new window
head, which is exactly the exit speed squared of the last committed
primitive, and the next plan's boundary-0 cap reproduces it. -/
theorem C3_planned_stream_exit_entry_continuous
    (mv ma jd bt : ℝ) (kt mw : ℕ) (aa : Option Vec3)
    (ps : List MotionPrimitive) :
    List.Chain' (fun a b => a.v_exit = b.v_entry)
      (planStream (initPlanner mv ma jd bt kt mw aa) ps) := by
  have hwf : PlannerWF (initPlanner mv ma jd bt kt mw aa) := by
    refine ⟨le_max_left _ _, show (0 : ℝ) ≤ 0.0 by norm_num,
      fun _ => show (0.0 : ℝ) = 0 by norm_num, ?_⟩
    intro hd hh
    rw [show (initPlanner mv ma jd bt kt mw aa).window = [] from rfl] at hh
    cases hh
  have h1 := pushAll_spec ps _ hwf
  have h2 := finish_spec (pushAll (initPlanner mv ma jd bt kt mw aa) ps).1 h1.1
  unfold planStream
  exact (streamOK_append _ _ _ _ _ h1.2 h2.2).1

/-- A left fold of `min` over non-negative values stays non-negative. -/
theorem foldl_min_nonneg (l : List ℝ) :
    ∀ a : ℝ, 0 ≤ a → (∀ x ∈ l, 0 ≤ x) → 0 ≤ l.foldl min a := by
  induction l with
  | nil =>
    intro a ha _
    exact ha
  | cons x xs ih =>
    intro a ha hl
    exact ih (min a x) (le_min ha (hl x (by simp)))
      (fun y hy => hl y (by simp [hy]))

/-- The per-axis effective path acceleration is non-negative for a
non-negative default and non-negative axis limits. -/
theorem effective_path_accel_nonneg (u : Vec3) (d : ℝ) (aa : Option Vec3)
    (hd : 0 ≤ d)
    (haa : ∀ v, aa = some v → 0 ≤ v.1 ∧ 0 ≤ v.2.1 ∧ 0 ≤ v.2.2) :
    0 ≤ effective_path_accel u d aa := by
  unfold effective_path_accel
  cases aa with
  | none => exact hd
  | some v =>
    have hv := haa v rfl
    dsimp only
    have hcand : ∀ x ∈ (((if |u.1| > EPS then [v.1 / |u.1|] else [])
        ++ (if |u.2.1| > EPS then [v.2.1 / |u.2.1|] else []))
          ++ (if |u.2.2| > EPS then [v.2.2 / |u.2.2|] else [])), 0 ≤ x := by
      intro x hx
      simp only [List.mem_append] at hx
      rcases hx with (h | h) | h
      · split at h
        · simp only [List.mem_singleton] at h
          rw [h]
          exact div_nonneg hv.1 (abs_nonneg _)
        · simp at h
      · split at h
        · simp only [List.mem_singleton] at h
          rw [h]
          exact div_nonneg hv.2.1 (abs_nonneg _)
        · simp at h
      · split at h
        · simp only [List.mem_singleton] at h
          rw [h]
          exact div_nonneg hv.2.2 (abs_nonneg _)
        · simp at h
    split
    · exact hd
    · next c cs heq =>
      exact foldl_min_nonneg cs c (hcand c (by rw [heq]; simp))
        (fun y hy => hcand y (by rw [heq]; simp [hy]))

/-- The segment speed cap is non-negative when `max_velocity` is. -/
theorem vmaxOf_nonneg (pl : CNCPlanner) (prim : MotionPrimitive)
    (hmv : 0 ≤ pl.max_velocity) : 0 ≤ vmaxOf pl prim := by
  unfold vmaxOf
  split
  · exact hmv
  · split
    · exact hmv
    · split
      · exact hmv
      · next f hf =>
        push_neg at hf
        exact le_min (div_nonneg (by linarith) (by norm_num)) hmv

/-- Every `_make_moveinfo` output under a sane configuration is a good
move. -/
theorem make_moveinfo_good (pl : CNCPlanner) (prim : MotionPrimitive)
    (mi : MoveInfo) (hcfg : cfgOK pl) (hmk : make_moveinfo pl prim = some mi) :
    GoodMove pl mi := by
  unfold make_moveinfo at hmk
  dsimp only at hmk
  split at hmk
  · cases hmk
  · injection hmk with hmk
    rw [← hmk]
    refine ⟨Real.sqrt_nonneg _, ?_, ?_, ?_, rfl⟩
    · exact effective_path_accel_nonneg _ _ _ hcfg.1 hcfg.2.2.2
    · exact vmaxOf_nonneg _ _ hcfg.2.1
    · exact mul_nonneg (mul_nonneg (by norm_num) (Real.sqrt_nonneg _))
        (effective_path_accel_nonneg _ _ _ hcfg.1 hcfg.2.2.2)

/-- The segment speed cap only reads `max_velocity`. -/
theorem vmaxOf_congr (a b : CNCPlanner) (p : MotionPrimitive)
    (h : a.max_velocity = b.max_velocity) : vmaxOf a p = vmaxOf b p := by
  unfold vmaxOf
  rw [h]

/-- The planned-speed contract transports between planners with the
same velocity limit. -/
theorem plannedOK_congr (a b : CNCPlanner) (pp : PlannedPrimitive)
    (h : a.max_velocity = b.max_velocity) (hok : PlannedOK a pp) :
    PlannedOK b pp :=
  ⟨hok.1, hok.2.1, hok.2.2.1, hok.2.2.2.1, by
    rw [← vmaxOf_congr a b pp.primitive h]
    exact hok.2.2.2.2⟩

/-- Every in-window boundary cap at a positive index is at most the
vmax² of the move before it. -/
theorem cap2_le_vmax2_left (moves : List MoveInfo) (jd s : ℝ) (st : Bool)
    (i : ℕ) (h1 : 1 ≤ i) (h2 : i < moves.length) :
    cap2 moves jd s st i
      ≤ (mvD moves (i - 1)).vmax * (mvD moves (i - 1)).vmax := by
  unfold cap2
  rw [if_neg (by omega), if_pos h2]
  exact le_trans (min_le_left _ _) (min_le_left _ _)

/-- Value facts for a planned window with sign-sane moves and a
carry-in below both the head's speed cap squared and the head-junction
reachability bound: every zero-clamped forward value respects the
neighbouring vmax² and both `±2aL` reachability steps. -/
theorem v2fwd_facts (moves : List MoveInfo) (jd s : ℝ)
    (hjd : 0 ≤ jd)
    (hall : ∀ mi ∈ moves, 0 ≤ mi.accel ∧ 0 ≤ mi.delta_v2 ∧ 0 ≤ mi.L)
    (hs0 : 0 ≤ s)
    (hsv : s ≤ (mvD moves 0).vmax * (mvD moves 0).vmax)
    (hsr : s ≤ 2.0 * (mvD moves 0).accel * (mvD moves 0).L
        + max 0.0 (v2back moves jd 0 true 1)) :
    ∀ i < moves.length,
      max 0.0 (v2fwd moves jd s true i) ≤ (mvD moves i).vmax * (mvD moves i).vmax
      ∧ max 0.0 (v2fwd moves jd s true (i + 1))
          ≤ (mvD moves i).vmax * (mvD moves i).vmax
      ∧ max 0.0 (v2fwd moves jd s true (i + 1))
          ≤ max 0.0 (v2fwd moves jd s true i)
            + 2.0 * (mvD moves i).accel * (mvD moves i).L
      ∧ max 0.0 (v2fwd moves jd s true i)
          ≤ max 0.0 (v2fwd moves jd s true (i + 1))
            + 2.0 * (mvD moves i).accel * (mvD moves i).L := by
  intro i hi
  have hmem := hall _ (mvD_mem moves i hi)
  have haL : 0 ≤ 2.0 * (mvD moves i).accel * (mvD moves i).L :=
    mul_nonneg (mul_nonneg (by norm_num) hmem.1) hmem.2.2
  refine ⟨?_, ?_, ?_, ?_⟩
  · refine le_trans (max0_mono (le_trans (v2fwd_le_v2back _ _ _ _ _)
      (v2back_le_cap2 _ _ _ _ _))) ?_
    refine le_trans (max0_mono (cap2_le_vmax2 _ _ _ _ _ hi)) ?_
    exact le_of_eq (max0_eq_of_nonneg (mul_self_nonneg _))
  · by_cases hi1 : i + 1 < moves.length
    · refine le_trans (max0_mono (le_trans (v2fwd_le_v2back _ _ _ _ _)
        (v2back_le_cap2 _ _ _ _ _))) ?_
      refine le_trans (max0_mono (cap2_le_vmax2_left _ _ _ _ _ (by omega) hi1)) ?_
      rw [show i + 1 - 1 = i by omega]
      exact le_of_eq (max0_eq_of_nonneg (mul_self_nonneg _))
    · have hlen : i + 1 = moves.length := by omega
      have hne : moves ≠ [] := by
        intro h
        rw [h] at hi
        simp at hi
      have hle : v2fwd moves jd s true (i + 1) ≤ 0 := by
        refine le_trans (v2fwd_le_v2back _ _ _ _ _) ?_
        rw [v2back_of_len_le _ _ _ _ _ (by omega), hlen]
        exact cap2_last_nonpos _ _ _ hne
      rw [max0_eq_zero_of_nonpos hle]
      exact le_trans (by norm_num) (mul_self_nonneg _)
  · exact le_trans (max0_mono (v2fwd_step _ _ _ _ _)) (max0_add_le _ _ haL)
  · have hminrw : v2fwd moves jd s true (i + 1)
        = min (v2back moves jd s true (i + 1))
            (v2fwd moves jd s true i
              + 2.0 * (mvD moves i).accel * (mvD moves i).L) := rfl
    rcases le_total (v2back moves jd s true (i + 1))
        (v2fwd moves jd s true i
          + 2.0 * (mvD moves i).accel * (mvD moves i).L) with hc | hc
    · have harm : v2fwd moves jd s true (i + 1)
          = v2back moves jd s true (i + 1) := by
        rw [hminrw]
        exact min_eq_left hc
      by_cases hi0 : i = 0
      · subst hi0
        rw [v2fwd_zero_clamped moves jd s true hs0 hsv, harm,
          v2back_start_irrel moves jd s 0 true 1 (le_refl 1)]
        linarith [hsr]
      · refine le_trans (max0_mono (le_trans (v2fwd_le_v2back _ _ _ _ _)
          (v2back_step _ _ _ _ i (by omega) hi))) ?_
        rw [harm]
        exact max0_add_le _ _ haL
    · have harm : v2fwd moves jd s true (i + 1)
          = v2fwd moves jd s true i
            + 2.0 * (mvD moves i).accel * (mvD moves i).L := by
        rw [hminrw]
        exact min_eq_right hc
      rw [harm]
      exact le_trans (max0_mono (le_add_of_nonneg_right haL))
        (le_add_of_nonneg_right haL)

/-- Every per-move trapezoid of a plan over a good window satisfies
the planned-speed contract: entry/exit below peak, all non-negative,
peak below the wrapped primitive's speed cap. -/
theorem plannedAt_ok (pl : CNCPlanner) (moves : List MoveInfo) (s : ℝ)
    (hcfg : cfgOK pl)
    (hgood : ∀ mi ∈ moves, GoodMove pl mi)
    (hs0 : 0 ≤ s)
    (hsv : s ≤ (mvD moves 0).vmax * (mvD moves 0).vmax)
    (hsr : s ≤ 2.0 * (mvD moves 0).accel * (mvD moves 0).L
        + max 0.0 (v2back moves pl.junction_deviation 0 true 1)) :
    ∀ i < moves.length,
      PlannedOK pl (plannedAt moves pl.junction_deviation s true i) := by
  intro i hi
  have hall : ∀ mi ∈ moves, 0 ≤ mi.accel ∧ 0 ≤ mi.delta_v2 ∧ 0 ≤ mi.L :=
    fun mi hm => ⟨(hgood mi hm).2.1, (hgood mi hm).2.2.2.1, (hgood mi hm).1⟩
  obtain ⟨h1, h2, h3, h4⟩ := v2fwd_facts moves pl.junction_deviation s
    hcfg.2.2.1 hall hs0 hsv hsr i hi
  have hgm := hgood _ (mvD_mem moves i hi)
  set q := mvD moves i with hq
  set fi := max 0.0 (v2fwd moves pl.junction_deviation s true i) with hfi
  set fo := max 0.0 (v2fwd moves pl.junction_deviation s true (i + 1)) with hfo
  set pk := min (q.vmax * q.vmax) (q.accel * q.L + 0.5 * (fi + fo)) with hpk
  have hfi0 : 0 ≤ fi := max0_nonneg _
  have hfo0 : 0 ≤ fo := max0_nonneg _
  have hpk_in : fi ≤ pk := by
    rw [hpk]
    refine le_min h1 ?_
    linarith [h4]
  have hpk_out : fo ≤ pk := by
    rw [hpk]
    refine le_min h2 ?_
    linarith [h3]
  have hpk2_nonneg : 0 ≤ pk := le_trans hfi0 hpk_in
  have hmaxpk : max 0.0 pk = pk := max0_eq_of_nonneg hpk2_nonneg
  refine ⟨?_, ?_, ?_, ?_, ?_⟩
  · rw [plannedAt_v_entry]
    exact Real.sqrt_nonneg _
  · rw [plannedAt_v_entry, plannedAt_v_peak, ← hq, ← hfi, ← hfo, ← hpk]
    exact Real.sqrt_le_sqrt (le_trans hpk_in (le_max_right _ _))
  · rw [plannedAt_v_exit]
    exact Real.sqrt_nonneg _
  · rw [plannedAt_v_exit, plannedAt_v_peak, ← hq, ← hfi, ← hfo, ← hpk]
    exact Real.sqrt_le_sqrt (le_trans hpk_out (le_max_right _ _))
  · rw [plannedAt_v_peak, plannedAt_primitive, ← hq, ← hfi, ← hfo, ← hpk,
      ← hgm.2.2.2.2]
    calc Real.sqrt (max 0.0 pk)
        ≤ Real.sqrt (q.vmax * q.vmax) := by
          refine Real.sqrt_le_sqrt ?_
          rw [hmaxpk, hpk]
          exact min_le_left _ _
      _ = q.vmax := Real.sqrt_mul_self hgm.2.2.1

/-- Characterisation of `_flush_if_ready`: either it is a no-op, or it
commits a per-index prefix of the whole-window plan, pops the same
number of moves, and stores the zero-clamped forward value at the new
head boundary as the carry-in v². -/
theorem flush_if_ready_cases (pl : CNCPlanner) (force : Bool)
    (hk1 : 1 ≤ pl.keep_tail_moves) :
    pl.flush_if_ready force = (pl, [])
    ∨ ∃ fc : ℕ, 1 ≤ fc ∧ fc < pl.window.length ∧
        pl.flush_if_ready force
          = ({ pl with window := pl.window.drop fc, window_time := if pl.window_time - ((pl.window.take fc).map MoveInfo.min_time).sum < 0 then 0.0 else pl.window_time - ((pl.window.take fc).map MoveInfo.min_time).sum, carry_in_v2 := max 0.0 (v2fwd pl.window pl.junction_deviation pl.carry_in_v2 true fc) },
             (List.range fc).map
               (plannedAt pl.window pl.junction_deviation pl.carry_in_v2 true)) := by
  unfold CNCPlanner.flush_if_ready
  split
  · exact Or.inl rfl
  split
  · exact Or.inl rfl
  next hA hB =>
  dsimp only
  split
  · exact Or.inl rfl
  next hfc0 =>
  have hwlen : pl.keep_tail_moves < pl.window.length := by omega
  have hne : pl.window ≠ [] := by
    intro h
    rw [h] at hwlen
    simp at hwlen
  have hfc_le : flushCountLoop force pl.buffer_time pl.window pl.window_time 0
      (pl.window.length - pl.keep_tail_moves)
        ≤ pl.window.length - pl.keep_tail_moves :=
    flushCountLoop_le force pl.buffer_time pl.window _ pl.window_time 0 _ rfl
      (by omega)
  have hfclt : flushCountLoop force pl.buffer_time pl.window pl.window_time 0
      (pl.window.length - pl.keep_tail_moves) < pl.window.length := by omega
  refine Or.inr ⟨flushCountLoop force pl.buffer_time pl.window pl.window_time 0
    (pl.window.length - pl.keep_tail_moves), by omega, hfclt, ?_⟩
  have hplen : (plan_window pl.window pl.junction_deviation pl.carry_in_v2
      true).length = pl.window.length := plan_window_length _ _ _ _
  rw [hplen, if_pos hfclt, plan_window_getD _ _ _ _ _ hfclt, plannedAt_v_entry,
    Real.mul_self_sqrt (max0_nonneg _),
    plan_window_take _ _ _ _ _ (le_of_lt hfclt) hne]

/-- `_flush_if_ready` preserves the full planner invariant, keeps the
velocity limit, and every committed primitive satisfies the
planned-speed contract. -/
theorem flush_planned (pl : CNCPlanner) (force : Bool) (hinv : PlanInv pl) :
    PlanInv (pl.flush_if_ready force).1
      ∧ (pl.flush_if_ready force).1.max_velocity = pl.max_velocity
      ∧ ∀ pp ∈ (pl.flush_if_ready force).2, PlannedOK pl pp := by
  obtain ⟨hcfg, hwf, hgood, hreach⟩ := hinv
  rcases flush_if_ready_cases pl force hwf.1 with h | ⟨fc, hfc1, hfclt, h⟩
  · rw [h]
    exact ⟨⟨hcfg, hwf, hgood, hreach⟩, rfl, fun pp hp => absurd hp (by simp)⟩
  · have hne : pl.window ≠ [] := by
      intro hc
      rw [hc] at hfclt
      simp at hfclt
    have hwfres := (flush_if_ready_spec pl force hwf).1
    rw [h] at hwfres
    have hq := hgood _ (mvD_mem pl.window fc hfclt)
    have hsr : pl.carry_in_v2 ≤ 2.0 * (mvD pl.window 0).accel
        * (mvD pl.window 0).L
        + max 0.0 (v2back pl.window pl.junction_deviation 0 true 1) :=
      hreach _ (head_eq_mvD _ hne)
    have hsv : pl.carry_in_v2 ≤ (mvD pl.window 0).vmax * (mvD pl.window 0).vmax :=
      hwf.2.2.2 _ (head_eq_mvD _ hne)
    rw [h]
    refine ⟨⟨hcfg, hwfres, ?_, ?_⟩, rfl, ?_⟩
    · intro mi hmi
      exact hgood mi (List.mem_of_mem_drop hmi)
    · intro hd hh
      rw [head_eq_mvD _ (by rw [ne_eq, List.drop_eq_nil_iff]; omega)] at hh
      injection hh with hh
      rw [← hh, mvD_drop, show fc + 0 = fc by omega]
      have hstep : max 0.0 (v2fwd pl.window pl.junction_deviation
          pl.carry_in_v2 true fc)
            ≤ max 0.0 (v2back pl.window pl.junction_deviation
                pl.carry_in_v2 true (fc + 1))
              + 2.0 * (mvD pl.window fc).accel * (mvD pl.window fc).L := by
        refine le_trans (max0_mono (le_trans (v2fwd_le_v2back _ _ _ _ _)
          (v2back_step _ _ _ _ fc hfc1 hfclt))) ?_
        exact max0_add_le _ _
          (mul_nonneg (mul_nonneg (by norm_num) hq.2.1) hq.1)
      rw [v2back_drop pl.window pl.junction_deviation 0 pl.carry_in_v2 fc
        hfclt 1 (le_refl 1), show 1 + fc = fc + 1 by omega]
      refine le_trans hstep ?_
      linarith
    · intro pp hp
      rw [List.mem_map] at hp
      obtain ⟨j, hj, hpp⟩ := hp
      rw [List.mem_range] at hj
      rw [← hpp]
      exact plannedAt_ok pl pl.window pl.carry_in_v2 hcfg hgood hwf.2.1 hsv hsr
        j (by omega)

/-- `push` preserves the full planner invariant, keeps the velocity
limit, and every committed primitive satisfies the planned-speed
contract. -/
theorem push_planned (pl : CNCPlanner) (p : MotionPrimitive) (hinv : PlanInv pl) :
    PlanInv (pl.push p).1
      ∧ (pl.push p).1.max_velocity = pl.max_velocity
      ∧ ∀ pp ∈ (pl.push p).2, PlannedOK pl pp := by
  obtain ⟨hcfg, hwf, hgood, hreach⟩ := hinv
  unfold CNCPlanner.push
  cases hmk : make_moveinfo pl p with
  | none => exact ⟨⟨hcfg, hwf, hgood, hreach⟩, rfl, fun pp hp => absurd hp (by simp)⟩
  | some mi =>
    have hmig : GoodMove pl mi := make_moveinfo_good pl p mi hcfg hmk
    have hinv' : PlanInv { pl with window := pl.window ++ [mi], window_time := pl.window_time + mi.min_time } := by
      refine ⟨hcfg, ?_, ?_, ?_⟩
      · refine ⟨hwf.1, hwf.2.1, ?_, ?_⟩
        · intro hcon
          exact absurd hcon (by simp)
        · intro hd hh
          cases hw : pl.window with
          | nil =>
            rw [hw] at hh
            simp only [List.nil_append, List.head?_cons] at hh
            injection hh with hh
            rw [hwf.2.2.1 hw, ← hh]
            exact mul_self_nonneg _
          | cons a l =>
            rw [hw] at hh
            simp only [List.cons_append, List.head?_cons] at hh
            apply hwf.2.2.2
            rw [hw, List.head?_cons]
            exact hh
      · intro x hx
        rw [List.mem_append] at hx
        rcases hx with hx | hx
        · exact hgood x hx
        · rw [List.mem_singleton] at hx
          rw [hx]
          exact hmig
      · intro hd hh
        dsimp only at hh ⊢
        cases hw : pl.window with
        | nil =>
          rw [hw] at hh
          simp only [List.nil_append, List.head?_cons] at hh
          injection hh with hh
          rw [hwf.2.2.1 hw, ← hh]
          have h1 : 0 ≤ 2.0 * mi.accel * mi.L :=
            mul_nonneg (mul_nonneg (by norm_num) hmig.2.1) hmig.1
          have h2 : (0 : ℝ) ≤ max 0.0 (v2back ([] ++ [mi])
              pl.junction_deviation 0 true 1) := max0_nonneg _
          linarith
        | cons a l =>
          rw [hw] at hh
          simp only [List.cons_append, List.head?_cons] at hh
          injection hh with hh
          have hall : ∀ x ∈ (a :: l) ++ [mi],
              0 ≤ x.accel ∧ 0 ≤ x.delta_v2 ∧ 0 ≤ x.L := by
            intro x hx
            rw [List.mem_append] at hx
            rcases hx with hx | hx
            · have hgx := hgood x (by rw [hw]; exact hx)
              exact ⟨hgx.2.1, hgx.2.2.2.1, hgx.1⟩
            · rw [List.mem_singleton] at hx
              rw [hx]
              exact ⟨hmig.2.1, hmig.2.2.2.1, hmig.1⟩
          have hmono := v2back_append_mono (a :: l) mi
            pl.junction_deviation 0 0 hcfg.2.2.1 hall 1 (le_refl 1) (by simp)
          have hold := hreach a (by rw [hw, List.head?_cons])
          rw [hw] at hold
          rw [← hh]
          have h5 := max0_mono hmono
          linarith
    exact ⟨(flush_planned _ _ hinv').1, (flush_planned _ _ hinv').2.1,
      (flush_planned _ _ hinv').2.2⟩

/-- `finish` resets the planner (trivially re-establishing the
invariant) and every primitive of the final batch satisfies the
planned-speed contract. -/
theorem finish_planned (pl : CNCPlanner) (hinv : PlanInv pl) :
    PlanInv (pl.finish).1
      ∧ (pl.finish).1.max_velocity = pl.max_velocity
      ∧ ∀ pp ∈ (pl.finish).2, PlannedOK pl pp := by
  obtain ⟨hcfg, hwf, hgood, hreach⟩ := hinv
  unfold CNCPlanner.finish
  cases hw : pl.window with
  | nil => exact ⟨⟨hcfg, hwf, hgood, hreach⟩, rfl, fun pp hp => absurd hp (by simp)⟩
  | cons a l =>
    have hne : a :: l ≠ [] := by simp
    have hhd : pl.window.head? = some (mvD (a :: l) 0) := by
      rw [hw]
      exact head_eq_mvD _ hne
    have hgood' : ∀ x ∈ a :: l, GoodMove pl x := by
      intro x hx
      exact hgood x (by rw [hw]; exact hx)
    have hsv : pl.carry_in_v2 ≤ (mvD (a :: l) 0).vmax * (mvD (a :: l) 0).vmax :=
      hwf.2.2.2 _ hhd
    have hsr : pl.carry_in_v2 ≤ 2.0 * (mvD (a :: l) 0).accel
        * (mvD (a :: l) 0).L
        + max 0.0 (v2back (a :: l) pl.junction_deviation 0 true 1) := by
      have := hreach _ hhd
      rw [hw] at this
      exact this
    dsimp only [CNCPlanner.reset]
    refine ⟨⟨hcfg, ⟨hwf.1, by norm_num, fun _ => by norm_num, ?_⟩, ?_, ?_⟩, rfl, ?_⟩
    · intro hd hh
      simp at hh
    · intro x hx
      simp at hx
    · intro hd hh
      simp at hh
    · intro pp hp
      rw [plan_window_eq_map _ _ _ _ hne, List.mem_map] at hp
      obtain ⟨j, hj, hpp⟩ := hp
      rw [List.mem_range] at hj
      rw [← hpp]
      exact plannedAt_ok pl (a :: l) pl.carry_in_v2 hcfg hgood' hwf.2.1 hsv hsr
        j hj

/-- Folding primitives through `push` preserves the invariant, keeps
the velocity limit, and every committed primitive satisfies the
planned-speed contract of the initial planner. -/
theorem pushAll_planned (ps : List MotionPrimitive) :
    ∀ pl : CNCPlanner, PlanInv pl →
      PlanInv (pushAll pl ps).1
        ∧ (pushAll pl ps).1.max_velocity = pl.max_velocity
        ∧ ∀ pp ∈ (pushAll pl ps).2, PlannedOK pl pp := by
  induction ps with
  | nil =>
    intro pl hinv
    exact ⟨hinv, rfl, fun pp hp => absurd hp (by simp [pushAll])⟩
  | cons p ps ih =>
    intro pl hinv
    have h1 := push_planned pl p hinv
    have h2 := ih (pl.push p).1 h1.1
    unfold pushAll
    dsimp only
    refine ⟨h2.1, h2.2.1.trans h1.2.1, ?_⟩
    intro pp hp
    rw [List.mem_append] at hp
    rcases hp with hp | hp
    · exact h1.2.2 pp hp
    · exact plannedOK_congr _ _ pp h1.2.1 (h2.2.2 pp hp)

/-- C4: with non-negative configured limits (the physical-units
contract of §4.4: `max_accel`, `max_velocity`, `junction_deviation`
and any per-axis accelerations are non-negative magnitudes), every
planned primitive ever emitted by the planner — through any sequence
of `push` commits and the `finish` batch — satisfies
`0 ≤ v_entry ≤ v_peak`, `0 ≤ v_exit ≤ v_peak` and
`v_peak ≤ vmaxOf`, where `vmaxOf` is `min(feedrate/60, max_velocity)`
for a Linear primitive with positive feedrate and `max_velocity` for a
Rapid primitive or one with missing (or non-positive) feedrate. -/
theorem C4_planned_speed_bounds
    (mv ma jd bt : ℝ) (kt mw : ℕ) (aa : Option Vec3) (ps : List MotionPrimitive)
    (hma : 0 ≤ ma) (hmv : 0 ≤ mv) (hjd : 0 ≤ jd)
    (haa : ∀ v, aa = some v → 0 ≤ v.1 ∧ 0 ≤ v.2.1 ∧ 0 ≤ v.2.2)
    (i : ℕ) (hi : i < (planStream (initPlanner mv ma jd bt kt mw aa) ps).length) :
    PlannedOK (initPlanner mv ma jd bt kt mw aa)
      ((planStream (initPlanner mv ma jd bt kt mw aa) ps).getD i
        (plannedAt [] 0 0 true 0)) := by
  have hinv0 : PlanInv (initPlanner mv ma jd bt kt mw aa) := by
    refine ⟨⟨hma, hmv, hjd, haa⟩,
      ⟨le_max_left _ _, show (0 : ℝ) ≤ 0.0 by norm_num,
        fun _ => show (0.0 : ℝ) = 0 by norm_num, ?_⟩, ?_, ?_⟩
    · intro hd hh
      rw [show (initPlanner mv ma jd bt kt mw aa).window = [] from rfl] at hh
      cases hh
    · intro x hx
      rw [show (initPlanner mv ma jd bt kt mw aa).window = [] from rfl] at hx
      cases hx
    · intro hd hh
      rw [show (initPlanner mv ma jd bt kt mw aa).window = [] from rfl] at hh
      cases hh
  have hp := pushAll_planned ps _ hinv0
  have hf := finish_planned (pushAll (initPlanner mv ma jd bt kt mw aa) ps).1 hp.1
  have hall : ∀ pp ∈ planStream (initPlanner mv ma jd bt kt mw aa) ps,
      PlannedOK (initPlanner mv ma jd bt kt mw aa) pp := by
    intro pp hpp
    unfold planStream at hpp
    rw [List.mem_append] at hpp
    rcases hpp with hpp | hpp
    · exact hp.2.2 pp hpp
    · exact plannedOK_congr _ _ pp hp.2.1 (hf.2.2 pp hpp)
  refine hall _ ?_
  rw [List.getD_eq_getElem?_getD, List.getElem?_eq_getElem hi, Option.getD_some]
  exact List.getElem_mem hi

/-- C4, witness: a single 1 mm rapid move through a planner with
`max_velocity = 10`, `max_accel = 100`, producing one planned
primitive whose speeds obey the contract. -/
theorem C4_planned_speed_bounds_witness :
    (0 : ℝ) ≤ 100 ∧ (0 : ℝ) ≤ 10 ∧ (0 : ℝ) ≤ 0
      ∧ 0 < (planStream (initPlanner 10 100 0 1 1 10 none)
          [⟨MotionType.RAPID, (0, 0, 0), (1, 0, 0), none⟩]).length
      ∧ PlannedOK (initPlanner 10 100 0 1 1 10 none)
          ((planStream (initPlanner 10 100 0 1 1 10 none)
            [⟨MotionType.RAPID, (0, 0, 0), (1, 0, 0), none⟩]).getD 0
              (plannedAt [] 0 0 true 0)) := by
  have hlen : (planStream (initPlanner 10 100 0 1 1 10 none)
      [⟨MotionType.RAPID, (0, 0, 0), (1, 0, 0), none⟩]).length = 1 := by
    norm_num [planStream, pushAll, CNCPlanner.push, make_moveinfo,
      MotionPrimitive.length, vmaxOf, unit_vec, effective_path_accel,
      CNCPlanner.flush_if_ready, CNCPlanner.finish, CNCPlanner.reset,
      initPlanner, plan_window, EPS, Real.sqrt_one]
  refine ⟨by norm_num, by norm_num, le_refl 0, by omega, ?_⟩
  exact C4_planned_speed_bounds 10 100 0 1 1 10 none
    [⟨MotionType.RAPID, (0, 0, 0), (1, 0, 0), none⟩]
    (by norm_num) (by norm_num) (le_refl 0) (fun v h => by cases h)
    0 (by omega)

/-- C5, counterexample: the spec claims the chordal deviation of every
emitted chord is at most `arc_tolerance`, but the segment count uses
`int(...)` (floor) where the tolerance rule needs a ceiling.  A 135°
counter-clockwise unit arc with tolerance `1 - √2/2 ≈ 0.293` gives
`max_seg_angle = π/2` and `⌊(3π/4)/(π/2)⌋ = 1`, so the whole arc
becomes a single chord whose midpoint misses the circle by
`1 - cos(3π/8) ≈ 0.617 > 0.293`. -/
theorem C5_counterexample_floor_segmentation_exceeds_tolerance :
    segment_arc (1, 0) (-(Real.sqrt 2 / 2), Real.sqrt 2 / 2) (0, 0) false
        (1 - Real.sqrt 2 / 2)
      = Except.ok [(-(Real.sqrt 2 / 2), Real.sqrt 2 / 2)]
    ∧ 1 - Real.sqrt 2 / 2
        < radialDeviation (0, 0) (hypot2 (1 - 0) (0 - 0))
            (chordPoint (1, 0) (-(Real.sqrt 2 / 2), Real.sqrt 2 / 2) (1 / 2)) := by
  have hpi := Real.pi_pos
  have hs2 : Real.sqrt 2 ^ 2 = 2 := Real.sq_sqrt (by norm_num)
  have hs2pos : (0 : ℝ) < Real.sqrt 2 := Real.sqrt_pos.mpr (by norm_num)
  have hs2lt : Real.sqrt 2 < 2 := by nlinarith [hs2, hs2pos]
  have hrs : hypot2 ((1 : ℝ) - 0) ((0 : ℝ) - 0) = 1 := by
    unfold hypot2
    norm_num
  have hre : hypot2 (-(Real.sqrt 2 / 2) - 0) (Real.sqrt 2 / 2 - 0) = 1 := by
    unfold hypot2
    rw [show (-(Real.sqrt 2 / 2) - 0) ^ 2 + (Real.sqrt 2 / 2 - 0) ^ 2 = 1 by
      nlinarith [hs2]]
    exact Real.sqrt_one
  have hsa : atan2 ((0 : ℝ) - 0) ((1 : ℝ) - 0) = 0 := by
    unfold atan2
    rw [show (⟨(1 : ℝ) - 0, (0 : ℝ) - 0⟩ : ℂ) = 1 by
      apply Complex.ext <;> simp]
    exact Complex.arg_one
  have hang : (3 : ℝ) * Real.pi / 4 = Real.pi - Real.pi / 4 := by ring
  have hcos34 : Real.cos (3 * Real.pi / 4) = -(Real.sqrt 2 / 2) := by
    rw [hang, Real.cos_pi_sub, Real.cos_pi_div_four]
  have hsin34 : Real.sin (3 * Real.pi / 4) = Real.sqrt 2 / 2 := by
    rw [hang, Real.sin_pi_sub, Real.sin_pi_div_four]
  have hea : atan2 (Real.sqrt 2 / 2 - 0) (-(Real.sqrt 2 / 2) - 0)
      = 3 * Real.pi / 4 := by
    unfold atan2
    rw [show (⟨-(Real.sqrt 2 / 2) - 0, Real.sqrt 2 / 2 - 0⟩ : ℂ)
        = Complex.ofReal (Real.cos (3 * Real.pi / 4))
          + Complex.ofReal (Real.sin (3 * Real.pi / 4)) * Complex.I by
      apply Complex.ext <;> simp [hcos34, hsin34]]
    rw [Complex.ofReal_cos, Complex.ofReal_sin]
    refine Complex.arg_cos_add_sin_mul_I ?_
    refine Set.mem_Ioc.mpr ⟨by linarith, by linarith⟩
  have hfc : ¬(|(1 : ℝ) - -(Real.sqrt 2 / 2)| < 1e-9
      ∧ |(0 : ℝ) - Real.sqrt 2 / 2| < 1e-9) := by
    intro hcon
    have h1 : |(1 : ℝ) - -(Real.sqrt 2 / 2)| = 1 + Real.sqrt 2 / 2 := by
      rw [abs_of_pos]
      · ring
      · linarith
    rw [h1] at hcon
    have := hcon.1
    norm_num at this
    linarith
  have hadj : adjustSweep false (3 * Real.pi / 4 - 0) = 3 * Real.pi / 4 := by
    unfold adjustSweep
    rw [if_neg (by simp), if_neg ?_]
    · ring
    · intro hcon
      have := hcon.2
      linarith
  have harccos : Real.arccos (max 0.0 (1 - (1 - Real.sqrt 2 / 2) / 1))
      = Real.pi / 4 := by
    rw [show (1 : ℝ) - (1 - Real.sqrt 2 / 2) / 1 = Real.sqrt 2 / 2 by ring]
    rw [max_eq_right (le_trans (by norm_num) (le_of_lt (half_pos hs2pos)))]
    rw [← Real.cos_pi_div_four]
    exact Real.arccos_cos (by positivity) (by linarith)
  have habs34 : |3 * Real.pi / 4| = 3 * Real.pi / 4 := abs_of_pos (by linarith)
  have hfloor : max 1 (⌊|3 * Real.pi / 4| / (2 * (Real.pi / 4))⌋.toNat) = 1 := by
    rw [habs34, show 3 * Real.pi / 4 / (2 * (Real.pi / 4)) = 3 / 2 by
      field_simp
      ring]
    rw [show ⌊(3 : ℝ) / 2⌋ = 1 by
      rw [Int.floor_eq_iff]
      norm_num]
    rfl
  constructor
  · unfold segment_arc
    dsimp only
    rw [hrs, hre]
    rw [if_neg (by norm_num)]
    rw [hsa, hea]
    rw [if_neg hfc]
    rw [hadj]
    rw [if_neg (show ¬(|3 * Real.pi / 4| * 1 = 0) from fun hcon => by
      rw [habs34] at hcon
      nlinarith)]
    rw [harccos]
    rw [if_neg (show ¬(2 * (Real.pi / 4) = 0) from fun hcon => by nlinarith)]
    rw [hfloor]
    show Except.ok ((List.range 1).map
      (arcPointAt 0 0 1 0 (3 * Real.pi / 4) 1)) = _
    rw [show (List.range 1).map (arcPointAt 0 0 1 0 (3 * Real.pi / 4) 1)
        = [arcPointAt 0 0 1 0 (3 * Real.pi / 4) 1 0] by rfl]
    unfold arcPointAt
    dsimp only
    rw [show (0 : ℝ) + 3 * Real.pi / 4 * ((((0 : ℕ) : ℝ) + 1) / ((1 : ℕ) : ℝ))
        = 3 * Real.pi / 4 by push_cast; ring]
    rw [hcos34, hsin34]
    norm_num
  · rw [hrs]
    have hq : chordPoint (1, 0) (-(Real.sqrt 2 / 2), Real.sqrt 2 / 2) (1 / 2)
        = ((2 - Real.sqrt 2) / 4, Real.sqrt 2 / 4) := by
      unfold chordPoint
      rw [Prod.ext_iff]
      constructor
      · show (1 : ℝ) + (-(Real.sqrt 2 / 2) - 1) * (1 / 2) = (2 - Real.sqrt 2) / 4
        ring
      · show (0 : ℝ) + (Real.sqrt 2 / 2 - 0) * (1 / 2) = Real.sqrt 2 / 4
        ring
    rw [hq]
    unfold radialDeviation
    rw [show ((2 - Real.sqrt 2) / 4 - 0) ^ 2 + (Real.sqrt 2 / 4 - 0) ^ 2
        = (2 - Real.sqrt 2) / 4 by linear_combination hs2 / 8]
    have hsqlt : Real.sqrt ((2 - Real.sqrt 2) / 4) < Real.sqrt 2 / 2 := by
      rw [Real.sqrt_lt' (by positivity)]
      nlinarith [hs2, hs2pos]
    have hsqnn : (0 : ℝ) ≤ Real.sqrt ((2 - Real.sqrt 2) / 4) := Real.sqrt_nonneg _
    have hlt1 : Real.sqrt ((2 - Real.sqrt 2) / 4) < 1 := by
      refine lt_trans hsqlt ?_
      nlinarith [hs2lt]
    rw [abs_of_nonpos (by linarith)]
    linarith

/-- The floor-based segment count still brackets the sweep: the
per-segment angle is below twice the angle cap. -/
theorem floor_seg_bound (SW m : ℝ) (hm0 : 0 ≤ m) (h3 : m ≠ 0) :
    |SW| ≤ 2 * ((max 1 (⌊|SW| / m⌋.toNat) : ℕ) : ℝ) * m := by
  have hmpos : 0 < m := lt_of_le_of_ne hm0 (Ne.symm h3)
  have hfl0 : (0 : ℤ) ≤ ⌊|SW| / m⌋ :=
    Int.floor_nonneg.mpr (div_nonneg (abs_nonneg _) hm0)
  have hq : |SW| / m < (⌊|SW| / m⌋ : ℝ) + 1 := Int.lt_floor_add_one _
  have hcast : ((⌊|SW| / m⌋.toNat : ℕ) : ℝ) = ((⌊|SW| / m⌋ : ℤ) : ℝ) := by
    exact_mod_cast Int.toNat_of_nonneg hfl0
  rcases Nat.eq_zero_or_pos ⌊|SW| / m⌋.toNat with hk | hk
  · rw [hk]
    have hfl1 : ⌊|SW| / m⌋ ≤ 0 := Int.toNat_eq_zero.mp hk
    have hlt : |SW| / m < 1 := by
      have hc : ((⌊|SW| / m⌋ : ℤ) : ℝ) ≤ 0 := by exact_mod_cast hfl1
      linarith
    rw [div_lt_one hmpos] at hlt
    have hone : ((max 1 0 : ℕ) : ℝ) = 1 := by norm_num
    rw [hone]
    linarith
  · have hmax : max 1 ⌊|SW| / m⌋.toNat = ⌊|SW| / m⌋.toNat := max_eq_right hk
    rw [hmax]
    have hk1 : (1 : ℝ) ≤ ((⌊|SW| / m⌋.toNat : ℕ) : ℝ) := by exact_mod_cast hk
    rw [div_lt_iff hmpos] at hq
    nlinarith [hq, hk1, hmpos, hcast]

/-- Successful `segment_arc` runs either emit nothing or emit the
equal-angular-step samples of some sweep, whose magnitude is at most
twice the segment count times the tolerance-derived angle cap. -/
theorem segment_arc_ok_cases (start stop center : ℝ × ℝ) (cw : Bool) (tol : ℝ)
    (pts : List (ℝ × ℝ))
    (hok : segment_arc start stop center cw tol = Except.ok pts) :
    pts = []
    ∨ ∃ sweep : ℝ, ∃ segments : ℕ,
        1 ≤ segments
        ∧ |sweep| ≤ 2 * (segments : ℝ)
            * (2 * Real.arccos (max 0.0
                (1 - tol / hypot2 (start.1 - center.1) (start.2 - center.2))))
        ∧ pts = (List.range segments).map
            (arcPointAt center.1 center.2
              (hypot2 (start.1 - center.1) (start.2 - center.2))
              (atan2 (start.2 - center.2) (start.1 - center.1)) sweep segments) := by
  unfold segment_arc at hok
  dsimp only at hok
  set SW := (if |start.1 - stop.1| < 1e-9 ∧ |start.2 - stop.2| < 1e-9
    then (if cw then -(2 * Real.pi) else 2 * Real.pi)
    else adjustSweep cw (atan2 (stop.2 - center.2) (stop.1 - center.1)
      - atan2 (start.2 - center.2) (start.1 - center.1))) with hSW
  split at hok
  · cases hok
  split at hok
  · injection hok with hok
    exact Or.inl hok.symm
  next h3 =>
  split at hok
  · cases hok
  next h4 =>
  injection hok with hok
  refine Or.inr ⟨SW, _, le_max_left _ _, ?_, hok.symm⟩
  exact floor_seg_bound SW _
    (mul_nonneg (by norm_num) (Real.arccos_nonneg _)) h4

/-- A non-zero planar vector is its magnitude times the unit vector of
its `atan2` angle (the `math.atan2` / `math.hypot` round trip). -/
theorem circle_point_of_atan2 (x y : ℝ) (h : ¬(x = 0 ∧ y = 0)) :
    hypot2 x y * Real.cos (atan2 y x) = x
    ∧ hypot2 x y * Real.sin (atan2 y x) = y := by
  have hz : (⟨x, y⟩ : ℂ) ≠ 0 := by
    intro hcon
    apply h
    constructor
    · have := congrArg Complex.re hcon
      simpa using this
    · have := congrArg Complex.im hcon
      simpa using this
  have habs : Complex.abs ⟨x, y⟩ = hypot2 x y := by
    rw [Complex.abs_apply, Complex.normSq_mk]
    unfold hypot2
    rw [show x * x + y * y = x ^ 2 + y ^ 2 by ring]
  have habs0 : hypot2 x y ≠ 0 := by
    rw [← habs]
    exact Complex.abs.ne_zero hz
  constructor
  · unfold atan2
    rw [Complex.cos_arg hz, habs]
    show hypot2 x y * (x / hypot2 x y) = x
    field_simp
  · unfold atan2
    rw [Complex.sin_arg, habs]
    show hypot2 x y * (y / hypot2 x y) = y
    field_simp

/-- Core geometric bound: a chord between two points of the circle of
radius `rs` spanning a central angle `Δ` with `|Δ|` at most twice the
tolerance-derived angle cap `2·arccos(max(0, 1 − tol/rs))` stays
radially within `4·tol` of the circle, at every chord parameter. -/
theorem chord_radial_bound (cx cy rs θ Δ t tol : ℝ)
    (hrs : 0 < rs) (htol : 0 < tol) (ht0 : 0 ≤ t) (ht1 : t ≤ 1)
    (hβ : |Δ| ≤ 2 * (2 * Real.arccos (max 0.0 (1 - tol / rs)))) :
    radialDeviation (cx, cy) rs
      (chordPoint (cx + rs * Real.cos θ, cy + rs * Real.sin θ)
        (cx + rs * Real.cos (θ + Δ), cy + rs * Real.sin (θ + Δ)) t)
      ≤ 4 * tol := by
  set c := max 0.0 (1 - tol / rs) with hc
  have hc0 : (0 : ℝ) ≤ c := max0_nonneg _
  have hc1 : c ≤ 1 := by
    rw [hc]
    refine max_le (by norm_num) ?_
    have hdiv : 0 ≤ tol / rs := div_nonneg htol.le hrs.le
    linarith
  have hα0 : 0 ≤ Real.arccos c := Real.arccos_nonneg _
  have hαpi2 : Real.arccos c ≤ Real.pi / 2 := Real.arccos_le_pi_div_two.mpr hc0
  have hcosα : Real.cos (Real.arccos c) = c := Real.cos_arccos (by linarith) hc1
  have hcosΔ1 : Real.cos Δ ≤ 1 := Real.cos_le_one Δ
  have hcosΔm1 : -1 ≤ Real.cos Δ := Real.neg_one_le_cos Δ
  have h2t : 2 * t * (1 - t) ≤ 1 / 2 := by nlinarith [sq_nonneg (2 * t - 1)]
  have h2t0 : 0 ≤ 2 * t * (1 - t) := by nlinarith
  have hD0 : 0 ≤ 1 - 2 * t * (1 - t) * (1 - Real.cos Δ) := by
    have hp : 2 * t * (1 - t) * (1 - Real.cos Δ) ≤ (1 / 2) * (1 - Real.cos Δ) :=
      mul_le_mul_of_nonneg_right h2t (by linarith)
    linarith
  have hD1 : 1 - 2 * t * (1 - t) * (1 - Real.cos Δ) ≤ 1 := by
    have hp : 0 ≤ 2 * t * (1 - t) * (1 - Real.cos Δ) :=
      mul_nonneg h2t0 (by linarith)
    linarith
  have hdist : ((chordPoint (cx + rs * Real.cos θ, cy + rs * Real.sin θ)
        (cx + rs * Real.cos (θ + Δ), cy + rs * Real.sin (θ + Δ)) t).1 - cx) ^ 2
      + ((chordPoint (cx + rs * Real.cos θ, cy + rs * Real.sin θ)
          (cx + rs * Real.cos (θ + Δ), cy + rs * Real.sin (θ + Δ)) t).2 - cy) ^ 2
      = rs ^ 2 * (1 - 2 * t * (1 - t) * (1 - Real.cos Δ)) := by
    unfold chordPoint
    dsimp only
    have h1 := Real.sin_sq_add_cos_sq θ
    have h2 := Real.sin_sq_add_cos_sq (θ + Δ)
    have h3 : Real.cos Δ = Real.cos (θ + Δ) * Real.cos θ
        + Real.sin (θ + Δ) * Real.sin θ := by
      have hs := Real.cos_sub (θ + Δ) θ
      rw [show θ + Δ - θ = Δ by ring] at hs
      exact hs
    linear_combination (rs ^ 2 * (1 - t) ^ 2) * h1 + (rs ^ 2 * t ^ 2) * h2
      - (2 * rs ^ 2 * t * (1 - t)) * h3
  unfold radialDeviation
  rw [hdist]
  rw [Real.sqrt_mul (sq_nonneg rs), Real.sqrt_sq hrs.le]
  set D := 1 - 2 * t * (1 - t) * (1 - Real.cos Δ) with hD
  have hsqD1 : Real.sqrt D ≤ 1 := by
    rw [show (1 : ℝ) = Real.sqrt 1 from Real.sqrt_one.symm]
    exact Real.sqrt_le_sqrt hD1
  rw [abs_of_nonpos (by nlinarith [Real.sqrt_nonneg D])]
  have hhalf : Real.cos (Δ / 2) ^ 2 = (1 + Real.cos Δ) / 2 := by
    have hcs := Real.cos_sq (Δ / 2)
    rw [show 2 * (Δ / 2) = Δ by ring] at hcs
    linarith
  have hD_ge : (1 + Real.cos Δ) / 2 ≤ D := by
    have hp := mul_nonneg (show (0 : ℝ) ≤ 1 - Real.cos Δ by linarith)
      (show (0 : ℝ) ≤ 1 / 2 - 2 * t * (1 - t) by linarith)
    rw [hD]
    nlinarith [hp]
  have hsq0 : Real.sqrt ((1 + Real.cos Δ) / 2) = |Real.cos (Δ / 2)| := by
    rw [← hhalf, Real.sqrt_sq_eq_abs]
  have hβ2 : |Δ| / 2 ≤ 2 * Real.arccos c := by linarith
  have h2απ : 2 * Real.arccos c ≤ Real.pi := by linarith
  have hcosmono : Real.cos (2 * Real.arccos c) ≤ Real.cos (|Δ| / 2) :=
    Real.cos_le_cos_of_nonneg_of_le_pi (by positivity) h2απ hβ2
  have hcoshalfabs : Real.cos (|Δ| / 2) = Real.cos (Δ / 2) := by
    rw [show |Δ| / 2 = |Δ / 2| by rw [abs_div]; norm_num, Real.cos_abs]
  have hchain : Real.cos (2 * Real.arccos c) ≤ Real.sqrt D := by
    calc Real.cos (2 * Real.arccos c) ≤ Real.cos (Δ / 2) := by
          rw [← hcoshalfabs]
          exact hcosmono
      _ ≤ |Real.cos (Δ / 2)| := le_abs_self _
      _ = Real.sqrt ((1 + Real.cos Δ) / 2) := hsq0.symm
      _ ≤ Real.sqrt D := Real.sqrt_le_sqrt hD_ge
  have hcos2α : Real.cos (2 * Real.arccos c) = 2 * c ^ 2 - 1 := by
    rw [Real.cos_two_mul, hcosα]
  have hfin : -(rs * Real.sqrt D - rs) ≤ rs * (2 - 2 * c ^ 2) := by
    have hmul : rs * (2 * c ^ 2 - 1) ≤ rs * Real.sqrt D := by
      apply mul_le_mul_of_nonneg_left _ hrs.le
      rw [← hcos2α]
      exact hchain
    nlinarith [hmul]
  refine le_trans hfin ?_
  rcases le_or_lt (1 - tol / rs) 0 with hcase | hcase
  · have hc00 : c = 0 := by
      rw [hc, max0_eq_zero_of_nonpos hcase]
      norm_num
    rw [hc00]
    have hrt : rs ≤ tol := by
      have h1 : 1 ≤ tol / rs := by linarith
      calc rs = 1 * rs := by ring
        _ ≤ tol / rs * rs := mul_le_mul_of_nonneg_right h1 hrs.le
        _ = tol := by field_simp
    nlinarith
  · have hcv : c = 1 - tol / rs := by
      rw [hc]
      exact max0_eq_of_nonneg hcase.le
    rw [hcv]
    have hu0 : 0 < tol / rs := div_pos htol hrs
    have hrw : rs * (tol / rs) = tol := by field_simp
    nlinarith [mul_nonneg hrs.le (sq_nonneg (tol / rs)), hrw, hu0]

/-- C5, amended: for a genuine arc (positive tolerance, start distinct
from center), every chord of the polyline emitted by `segment_arc` —
from the start point through the sampled points — stays radially
within `4 · arc_tolerance` of the true circle through the start point,
at every chord parameter.  (The claimed `1 ·` bound is false: the
floor-based segment count lets one segment span up to twice the
tolerance-derived angle cap, and the sagitta of a doubled angle is at
most four times that of the original, hence the factor 4.) -/
theorem C5_amended_chordal_deviation_within_4x
    (start stop center a b : ℝ × ℝ) (cw : Bool) (tol t : ℝ)
    (pts : List (ℝ × ℝ))
    (htol : 0 < tol) (hsc : start ≠ center)
    (hok : segment_arc start stop center cw tol = Except.ok pts)
    (hmem : (a, b) ∈ (start :: pts).zip pts)
    (ht0 : 0 ≤ t) (ht1 : t ≤ 1) :
    radialDeviation center
      (hypot2 (start.1 - center.1) (start.2 - center.2))
      (chordPoint a b t) ≤ 4 * tol := by
  rcases segment_arc_ok_cases start stop center cw tol pts hok with
    hnil | ⟨SW, n, hn1, hbound, hpts⟩
  · rw [hnil] at hmem
    simp at hmem
  set rs := hypot2 (start.1 - center.1) (start.2 - center.2) with hrsdef
  set sa := atan2 (start.2 - center.2) (start.1 - center.1) with hsadef
  have hne0 : ¬(start.1 - center.1 = 0 ∧ start.2 - center.2 = 0) := by
    intro hcon
    apply hsc
    have h1 : start.1 = center.1 := by linarith [hcon.1]
    have h2 : start.2 = center.2 := by linarith [hcon.2]
    exact Prod.ext h1 h2
  have hrs0 : 0 < rs := by
    have hge : 0 ≤ rs := by
      rw [hrsdef]
      exact hypot2_nonneg _ _
    rcases eq_or_lt_of_le hge with heq | hlt
    · exfalso
      apply hne0
      rw [← hypot2_eq_zero_iff (start.1 - center.1) (start.2 - center.2)]
      rw [← hrsdef]
      exact heq.symm
    · exact hlt
  obtain ⟨hcx, hcy⟩ := circle_point_of_atan2 (start.1 - center.1)
    (start.2 - center.2) hne0
  have hstart : start = (center.1 + rs * Real.cos sa,
      center.2 + rs * Real.sin sa) := by
    refine Prod.ext ?_ ?_
    · show start.1 = center.1 + rs * Real.cos sa
      linarith [hcx]
    · show start.2 = center.2 + rs * Real.sin sa
      linarith [hcy]
  have hnR : (0 : ℝ) < (n : ℝ) := by exact_mod_cast hn1
  rw [List.mem_iff_getElem?] at hmem
  obtain ⟨i, hmem⟩ := hmem
  rw [List.getElem?_zip_eq_some] at hmem
  obtain ⟨ha, hb⟩ := hmem
  dsimp only at ha hb
  have hi' : i < pts.length := by
    rcases lt_or_ge i pts.length with h | h
    · exact h
    · rw [List.getElem?_eq_none h] at hb
      cases hb
  have hin : i < n := by
    rw [hpts, List.length_map, List.length_range] at hi'
    exact hi'
  have hbv : b = arcPointAt center.1 center.2 rs sa SW n i := by
    rw [hpts, List.getElem?_map, List.getElem?_range hin] at hb
    rw [Option.map_some'] at hb
    injection hb with hb
    exact hb.symm
  have hav : a = (center.1 + rs * Real.cos (sa + SW * ((i : ℝ) / (n : ℝ))),
      center.2 + rs * Real.sin (sa + SW * ((i : ℝ) / (n : ℝ)))) := by
    cases i with
    | zero =>
      rw [List.getElem?_cons_zero] at ha
      injection ha with ha
      rw [← ha, hstart]
      norm_num
    | succ k =>
      rw [List.getElem?_cons_succ] at ha
      have hkn : k < n := by omega
      rw [hpts, List.getElem?_map, List.getElem?_range hkn] at ha
      rw [Option.map_some'] at ha
      injection ha with ha
      rw [← ha]
      unfold arcPointAt
      dsimp only
      rw [show ((k : ℝ) + 1) = (((k + 1 : ℕ)) : ℝ) by push_cast; ring]
  have hβ : |SW / (n : ℝ)| ≤ 2 * (2 * Real.arccos (max 0.0 (1 - tol / rs))) := by
    rw [abs_div, abs_of_pos hnR, div_le_iff hnR]
    calc |SW| ≤ 2 * (n : ℝ) * (2 * Real.arccos (max 0.0 (1 - tol / rs))) :=
          hbound
      _ = 2 * (2 * Real.arccos (max 0.0 (1 - tol / rs))) * (n : ℝ) := by ring
  have hmain := chord_radial_bound center.1 center.2 rs
    (sa + SW * ((i : ℝ) / (n : ℝ))) (SW / (n : ℝ)) t tol hrs0 htol ht0 ht1 hβ
  rw [hav, hbv]
  unfold arcPointAt
  dsimp only
  rw [show sa + SW * (((i : ℝ) + 1) / (n : ℝ))
      = sa + SW * ((i : ℝ) / (n : ℝ)) + SW / (n : ℝ) by
    field_simp
    ring]
  exact hmain

/-- C5 amended, witness: a quarter unit circle with tolerance 1
segments into a single chord from (1,0) to (0,1), whose midpoint
deviation is within `4 · 1`. -/
theorem C5_amended_chordal_deviation_witness :
    (0 : ℝ) < 1
    ∧ ((1 : ℝ), (0 : ℝ)) ≠ ((0 : ℝ), (0 : ℝ))
    ∧ radialDeviation (0, 0) (hypot2 ((1 : ℝ) - 0) ((0 : ℝ) - 0))
        (chordPoint (1, 0) (0, 1) (1 / 2)) ≤ 4 * 1 := by
  have hpi := Real.pi_pos
  have hsa : atan2 ((0 : ℝ) - 0) ((1 : ℝ) - 0) = 0 := by
    unfold atan2
    rw [show (⟨(1 : ℝ) - 0, (0 : ℝ) - 0⟩ : ℂ) = 1 by
      apply Complex.ext <;> simp]
    exact Complex.arg_one
  have hea : atan2 ((1 : ℝ) - 0) ((0 : ℝ) - 0) = Real.pi / 2 := by
    unfold atan2
    rw [show (⟨(0 : ℝ) - 0, (1 : ℝ) - 0⟩ : ℂ) = Complex.I by
      apply Complex.ext <;> simp]
    exact Complex.arg_I
  have hadj : adjustSweep false (Real.pi / 2 - 0) = Real.pi / 2 := by
    unfold adjustSweep
    rw [if_neg (by simp), if_neg ?_]
    · ring
    · intro hcon
      have := hcon.2
      linarith
  have harccos : Real.arccos (max 0.0 (1 - (1 : ℝ) / 1)) = Real.pi / 2 := by
    rw [show (1 : ℝ) - 1 / 1 = 0 by norm_num]
    rw [max_eq_right (by norm_num)]
    exact Real.arccos_zero
  have habs : |Real.pi / 2| = Real.pi / 2 := abs_of_pos (by linarith)
  have hfloor : max 1 (⌊|Real.pi / 2| / (2 * (Real.pi / 2))⌋.toNat) = 1 := by
    rw [habs, show Real.pi / 2 / (2 * (Real.pi / 2)) = 1 / 2 by
      rw [div_eq_iff (by linarith)]
      ring]
    rw [show ⌊(1 : ℝ) / 2⌋ = 0 by
      rw [Int.floor_eq_iff]
      norm_num]
    rfl
  have hok : segment_arc (1, 0) (0, 1) (0, 0) false 1
      = Except.ok [((0 : ℝ), (1 : ℝ))] := by
    unfold segment_arc
    dsimp only
    rw [show hypot2 ((1 : ℝ) - 0) ((0 : ℝ) - 0) = 1 by
      unfold hypot2
      norm_num]
    rw [show hypot2 ((0 : ℝ) - 0) ((1 : ℝ) - 0) = 1 by
      unfold hypot2
      norm_num]
    rw [if_neg (by norm_num)]
    rw [hsa, hea]
    rw [if_neg (show ¬(|(1 : ℝ) - 0| < 1e-9 ∧ |(0 : ℝ) - 1| < 1e-9) by
      intro hcon
      have := hcon.1
      norm_num at this)]
    rw [hadj]
    rw [if_neg (show ¬(|Real.pi / 2| * 1 = 0) from fun hcon => by
      rw [habs] at hcon
      nlinarith)]
    rw [harccos]
    rw [if_neg (show ¬(2 * (Real.pi / 2) = 0) from fun hcon => by nlinarith)]
    rw [hfloor]
    show Except.ok ((List.range 1).map
      (arcPointAt 0 0 1 0 (Real.pi / 2) 1)) = _
    rw [show (List.range 1).map (arcPointAt 0 0 1 0 (Real.pi / 2) 1)
        = [arcPointAt 0 0 1 0 (Real.pi / 2) 1 0] by rfl]
    unfold arcPointAt
    dsimp only
    rw [show (0 : ℝ) + Real.pi / 2 * ((((0 : ℕ) : ℝ) + 1) / ((1 : ℕ) : ℝ))
        = Real.pi / 2 by push_cast; ring]
    rw [Real.cos_pi_div_two, Real.sin_pi_div_two]
    norm_num
  refine ⟨by norm_num, by simp [Prod.ext_iff], ?_⟩
  exact C5_amended_chordal_deviation_within_4x (1, 0) (0, 1) (0, 0) (1, 0)
    (0, 1) false 1 (1 / 2) [(0, 1)] (by norm_num) (by simp [Prod.ext_iff])
    hok (by simp) (by norm_num) (by norm_num)
